import Mathlib

/-!
Verification of the version-interval candidate solver of this repository:
the functions `generate_candidates` (scripts/verify_versions.py) and
`get_version_candidates` (scripts/test_ver.py).  Python strings are
modelled as lists of characters, Python ints as `Nat`, dictionaries with
the two bound keys as a structure with two optional string fields.
-/

namespace VersionSolver

/-- A Python string, modelled as its list of characters. -/
abbrev Str := List Char

/-- Convenience: the character list of a Lean string literal. -/
def strOf (s : String) : Str := s.data

/-- Modelled from the spec: the observable part of a parsed version as
produced by packaging.version.parse (an external library, not part of this
repository): the tuple of non-negative release components and the
pre-release flag.  Only these two fields are inspected by the solver. -/
structure VersionNumber where
  release : List Nat
  isPre : Bool
deriving Repr, DecidableEq

/-! ### Decimal numerals: Python str(int) and int(str) -/

/-- The numeric value of a decimal digit character, if it is one. -/
def digitVal (c : Char) : Option Nat :=
  if '0' ≤ c ∧ c ≤ '9' then some (c.toNat - 48) else none

/-- Left-to-right accumulation of a decimal numeral; fails on a
non-digit character.  Models Python int() on an all-digit string. -/
def chunkVal : Str → Nat → Option Nat
  | [], acc => some acc
  | c :: rest, acc =>
    match digitVal c with
    | some d => chunkVal rest (acc * 10 + d)
    | none => none

/-- Python int(s) for a chunk: nonempty all-digit strings only
(the grammar of release components). -/
def parseChunk (cs : Str) : Option Nat :=
  match cs with
  | [] => none
  | _ :: _ => chunkVal cs 0

/-- Fuel-driven decimal printing; fuel n+1 always suffices for n. -/
def decDigitsAux : Nat → Nat → Str
  | 0, _ => []
  | fuel + 1, n =>
    if n < 10 then [Nat.digitChar n]
    else decDigitsAux fuel (n / 10) ++ [Nat.digitChar (n % 10)]

/-- Python str(n) for a non-negative integer n. -/
def decDigits (n : Nat) : Str := decDigitsAux (n + 1) n

/-! ### Splitting on dots and joining with dots -/

/-- Python s.split(chr 46): always returns a nonempty list of chunks. -/
def splitDots : Str → List Str
  | [] => [[]]
  | c :: rest =>
    if c = '.' then [] :: splitDots rest
    else
      match splitDots rest with
      | h :: t => (c :: h) :: t
      | [] => [[c]]

/-- Python (chr 46).join(chunks). -/
def joinDots : List Str → Str
  | [] => []
  | c :: rest =>
    match rest with
    | [] => c
    | _ :: _ => c ++ '.' :: joinDots rest

/-- The dotted-integer string of a release tuple:
Python ".".join(map(str, parts)). -/
def printVersion (parts : List Nat) : Str := joinDots (parts.map decDigits)

/-! ### The version grammar (spec-modelled parse) -/

/-- Is c a decimal digit character. -/
def isDigitCh (c : Char) : Bool := decide ('0' ≤ c ∧ c ≤ '9')

/-- Recognised pre-release tag words. -/
def preTags : List Str :=
  [strOf "a", strOf "b", strOf "c", strOf "rc", strOf "alpha",
   strOf "beta", strOf "pre", strOf "preview", strOf "dev"]

/-- Split a chunk into its leading digits and the remainder. -/
def spanDigits : Str → Str × Str
  | [] => ([], [])
  | c :: rest =>
    if isDigitCh c then
      let p := spanDigits rest
      (c :: p.1, p.2)
    else ([], c :: rest)

/-- Modelled from the spec: a recognised pre-release suffix is a tag word
optionally followed by digits. -/
def isPreSuffix (cs : Str) : Bool :=
  preTags.any (fun t => t.isPrefixOf cs && (cs.drop t.length).all isDigitCh)

/-- Parse the final chunk: either plain digits (final release) or digits
directly followed by a pre-release suffix. -/
def parseLastChunk (cs : Str) : Option (Nat × Bool) :=
  match parseChunk cs with
  | some n => some (n, false)
  | none =>
    let p := spanDigits cs
    match parseChunk p.1 with
    | some n => if isPreSuffix p.2 then some (n, true) else none
    | none => none

/-- Parse the chunk list of a version string: every chunk but the last is
a plain numeral, the last may carry the pre-release suffix. -/
def parseChunks : List Str → Option (List Nat × Bool)
  | [] => none
  | [c] =>
    match parseLastChunk c with
    | some p => some ([p.1], p.2)
    | none => none
  | c :: rest =>
    match parseChunk c, parseChunks rest with
    | some n, some p => some (n :: p.1, p.2)
    | _, _ => none

/-- Modelled from the spec: packaging.version.parse (external library)
restricted to the spec grammar of section 6 - dot-separated non-negative
integers with an optional pre-release suffix; anything else fails. -/
def parseVersion (s : Str) : Option VersionNumber :=
  match parseChunks (splitDots s) with
  | some p => some ⟨p.1, p.2⟩
  | none => none

/-! ### Ordering of release tuples -/

/-- Modelled from the spec: the packaging library order of two final
releases - lexicographic on release tuples, the shorter one implicitly
padded with trailing zeros. -/
def relLt : List Nat → List Nat → Bool
  | [], bs => bs.any (fun b => 0 < b)
  | _ :: _, [] => false
  | a :: as_, b :: bs =>
    if a < b then true
    else if b < a then false
    else relLt as_ bs

/-- Component i of a release tuple under implicit zero padding. -/
def gd (l : List Nat) (i : Nat) : Nat := l.getD i 0

/-- Comparison of two versions as the solver uses it: the solver only
ever compares final releases, where the library order is the release
order `relLt`. -/
def vLt (a b : VersionNumber) : Bool := relLt a.release b.release

/-! ### Python string order and sorting -/

/-- Python string comparison: lexicographic by code point, a strict
prefix sorting first. -/
def strLt : Str → Str → Bool
  | [], [] => false
  | [], _ :: _ => true
  | _ :: _, [] => false
  | c :: cs, d :: ds =>
    if c.toNat < d.toNat then true
    else if d.toNat < c.toNat then false
    else strLt cs ds

/-- Insert into a sorted list, before the first element that a may
precede (a stable insertion). -/
def insertLe (le : α → α → Bool) (a : α) : List α → List α
  | [] => [a]
  | b :: bs => if le a b then a :: b :: bs else b :: insertLe le a bs

/-- Stable insertion sort; models Python sorted(...) with the order le. -/
def sortLe (le : α → α → Bool) : List α → List α
  | [] => []
  | a :: as_ => insertLe le a (sortLe le as_)

/-- The release tuple a candidate string parses back to (all candidate
strings are valid, the default is never reached). -/
def parsedRelease (s : Str) : List Nat :=
  ((parseVersion s).getD ⟨[0], false⟩).release

/-- sorted(..., key=parse_version): s may precede t when t is not
strictly below s. -/
def genLe (s t : Str) : Bool := ! relLt (parsedRelease t) (parsedRelease s)

/-- sorted(...) on plain strings: s may precede t when t < s fails. -/
def lexLe (s t : Str) : Bool := ! strLt t s

/-! ### The solver: shared pieces -/

/-- One input record: a dictionary with the two optional bound fields. -/
structure Entry where
  deprecated_in : Option Str := none
  removed_in : Option Str := none
deriving Repr, DecidableEq

/-- The versions contributed by one bound field: absent or empty strings
contribute nothing, parse failures are silently dropped, pre-releases are
filtered out. -/
def boundVersions (o : Option Str) : List VersionNumber :=
  match o with
  | none => []
  | some s =>
    if s = [] then []
    else
      match parseVersion s with
      | some v => if v.isPre then [] else [v]
      | none => []

/-- All valid non-pre-release versions of the input, in scan order. -/
def extractVersions (data : List Entry) : List VersionNumber :=
  data.flatMap (fun e => boundVersions e.deprecated_in ++ boundVersions e.removed_in)

/-- get_major: the leading release component, 0 for an empty release. -/
def get_major (v : VersionNumber) : Nat := v.release.headD 0

/-- The major keys of the grouping dictionary. -/
def majors (vs : List VersionNumber) : List Nat := (vs.map get_major).dedup

/-- The group of one major key, in scan order. -/
def groupOf (vs : List VersionNumber) (m : Nat) : List VersionNumber :=
  vs.filter (fun v => get_major v = m)

/-- Python min() on a version list: the first minimal element.  The
empty case is never reached (groups are nonempty). -/
def pyMin : List VersionNumber → VersionNumber
  | [] => ⟨[0], false⟩
  | v :: vs => vs.foldl (fun acc w => if vLt w acc then w else acc) v

/-- Python max() on a version list: the first maximal element. -/
def pyMax : List VersionNumber → VersionNumber
  | [] => ⟨[0], false⟩
  | v :: vs => vs.foldl (fun acc w => if vLt acc w then w else acc) v

/-- str() of a final-release version: its dotted release tuple. -/
def strV (v : VersionNumber) : Str := printVersion v.release

/-- Decrement the last positive component, keeping every other component
unchanged; none when all components are zero.  This is the shared
below-minimum scan of both scripts (their loop runs from the right and
stops at the first positive component). -/
def decLastPos : List Nat → Option (List Nat)
  | [] => none
  | a :: as_ =>
    match decLastPos as_ with
    | some r => some (a :: r)
    | none => if 0 < a then some ((a - 1) :: as_) else none

/-- The below-minimum candidate string of a group minimum. -/
def preMinCand (minV : VersionNumber) : Option Str :=
  (decLastPos minV.release).map printVersion

/-- Pad a release tuple with trailing zeros to length n. -/
def padTo (n : Nat) (l : List Nat) : List Nat :=
  l ++ List.replicate (n - l.length) 0

/-- The first index at which two equally long padded tuples differ. -/
def firstDiffIdx : List Nat → List Nat → Option Nat
  | a :: as_, b :: bs =>
    if a = b then (firstDiffIdx as_ bs).map (fun i => i + 1) else some 0
  | _, _ => none

/-- The midpoint tuple of verify_versions.py: walk the common prefix; at
the first difference either average at that depth and zero the rest
(gap above 1) or keep the differing component and append a 5. -/
def findMidGen : List Nat → List Nat → Option (List Nat)
  | a :: as_, b :: bs =>
    if a = b then (findMidGen as_ bs).map (fun r => a :: r)
    else if 1 < b - a then some ((a + (b - a) / 2) :: List.replicate as_.length 0)
    else some [a, 5]
  | _, _ => none

/-- The midpoint tuple of test_ver.py: identical except that the gap-one
branch adds nothing (its deeper-level code path never stores a result). -/
def findMidTV : List Nat → List Nat → Option (List Nat)
  | a :: as_, b :: bs =>
    if a = b then (findMidTV as_ bs).map (fun r => a :: r)
    else if 1 < b - a then some (((a + b) / 2) :: List.replicate as_.length 0)
    else none
  | _, _ => none

/-- Pop trailing zeros of the reversed tuple while the tracked length
stays above 3 (the while loop of verify_versions.py). -/
def trimAux : List Nat → Nat → List Nat
  | [], _ => []
  | a :: rest, n =>
    match a with
    | 0 => if 3 < n then trimAux rest (n - 1) else 0 :: rest
    | b + 1 => (b + 1) :: rest

/-- verify_versions.py: drop trailing zero components while more than
three components remain. -/
def trimMid (l : List Nat) : List Nat := (trimAux l.reverse l.length).reverse

/-- The common padded length of a group's minimum and maximum. -/
def lenMax (minV maxV : VersionNumber) : Nat :=
  max minV.release.length maxV.release.length

/-- The zero-padded release tuple of the group minimum. -/
def padLo (minV maxV : VersionNumber) : List Nat :=
  padTo (lenMax minV maxV) minV.release

/-- The zero-padded release tuple of the group maximum. -/
def padHi (minV maxV : VersionNumber) : List Nat :=
  padTo (lenMax minV maxV) maxV.release

/-- The midpoint tuple the spec describes for a first difference at index
i with gap above one: the minimum's components before i, minimum plus
half the gap at i, zeros after. -/
def midTuple (minV maxV : VersionNumber) (i : Nat) : List Nat :=
  (padLo minV maxV).take i ++
    (gd (padLo minV maxV) i + (gd (padHi minV maxV) i - gd (padLo minV maxV) i) / 2)
      :: List.replicate ((padLo minV maxV).length - (i + 1)) 0

/-- The midpoint candidate of verify_versions.py for a group (only when
the minimum is strictly below the maximum). -/
def midCandGen (minV maxV : VersionNumber) : Option Str :=
  if vLt minV maxV then
    match findMidGen (padTo (lenMax minV maxV) minV.release)
        (padTo (lenMax minV maxV) maxV.release) with
    | some mid => some (printVersion (trimMid mid))
    | none => none
  else none

/-- The midpoint candidate of test_ver.py for a group. -/
def midCandTV (minV maxV : VersionNumber) : Option Str :=
  if vLt minV maxV then
    match findMidTV (padTo (lenMax minV maxV) minV.release)
        (padTo (lenMax minV maxV) maxV.release) with
    | some mid => some (printVersion mid)
    | none => none
  else none

/-- The candidate strings one group contributes in verify_versions.py:
the minimum, the maximum, the below-minimum and the midpoint. -/
def groupCandsGen (g : List VersionNumber) : List Str :=
  let minV := pyMin g
  let maxV := pyMax g
  [strV minV, strV maxV] ++ (preMinCand minV).toList ++ (midCandGen minV maxV).toList

/-- The candidate strings one group contributes in test_ver.py: the
below-minimum, the maximum and the midpoint (no minimum). -/
def groupCandsTV (g : List VersionNumber) : List Str :=
  let minV := pyMin g
  let maxV := pyMax g
  (preMinCand minV).toList ++ [strV maxV] ++ (midCandTV minV maxV).toList

/-- Drop exactly the bound strings that parse as pre-releases, keeping
everything else (used to state that pre-release bounds do not influence
the output). -/
def scrubPre (o : Option Str) : Option Str :=
  match o with
  | none => none
  | some s =>
    match parseVersion s with
    | some v => if v.isPre then none else some s
    | none => some s

/-- scrubPre applied to both bound fields of a record. -/
def scrubPreEntry (e : Entry) : Entry :=
  ⟨scrubPre e.deprecated_in, scrubPre e.removed_in⟩

/-- Drop exactly the bound strings that fail to parse (used to state
that malformed bounds are silently excluded). -/
def scrubBad (o : Option Str) : Option Str :=
  match o with
  | none => none
  | some s =>
    match parseVersion s with
    | some _ => some s
    | none => none

/-- scrubBad applied to both bound fields of a record. -/
def scrubBadEntry (e : Entry) : Entry :=
  ⟨scrubBad e.deprecated_in, scrubBad e.removed_in⟩

/-- generate_candidates of scripts/verify_versions.py. -/
def generate_candidates (data : List Entry) : List Str :=
  let versions := extractVersions data
  if versions = [] then []
  else
    sortLe genLe
      ((majors versions).flatMap (fun m => groupCandsGen (groupOf versions m))).dedup

/-- get_version_candidates of scripts/test_ver.py: identical pipeline,
but no minimum candidate, no gap-one midpoint, and the final sort is on
plain strings. -/
def get_version_candidates (data : List Entry) : List Str :=
  let versions := extractVersions data
  if versions = [] then []
  else
    sortLe lexLe
      ((majors versions).flatMap (fun m => groupCandsTV (groupOf versions m))).dedup

/-! ### Decimal printing round-trips through parsing -/

theorem digitVal_digitChar : ∀ d, d < 10 → digitVal (Nat.digitChar d) = some d := by
  decide

theorem digitChar_ne_dot : ∀ d, d < 10 → Nat.digitChar d ≠ '.' := by
  decide

theorem chunkVal_append (xs ys : Str) (acc : Nat) :
    chunkVal (xs ++ ys) acc =
      match chunkVal xs acc with
      | some m => chunkVal ys m
      | none => none := by
  induction xs generalizing acc with
  | nil => simp [chunkVal]
  | cons c rest ih =>
    simp only [List.cons_append, chunkVal]
    cases h : digitVal c with
    | none => rfl
    | some d => exact ih _

theorem decDigitsAux_length_chunkVal :
    ∀ fuel n acc, n < fuel →
      chunkVal (decDigitsAux fuel n) acc =
        some (acc * 10 ^ (decDigitsAux fuel n).length + n) := by
  intro fuel
  induction fuel with
  | zero => intro n acc h; omega
  | succ fuel ih =>
    intro n acc h
    by_cases hn : n < 10
    · simp only [decDigitsAux, if_pos hn, chunkVal, digitVal_digitChar n hn]
      simp
    · have hrec : n / 10 < fuel := by
        have h1 : n / 10 < n := Nat.div_lt_self (by omega) (by omega)
        omega
      simp only [decDigitsAux, if_neg hn, chunkVal_append]
      rw [ih (n / 10) acc hrec]
      have hm : n % 10 < 10 := Nat.mod_lt _ (by omega)
      simp only [chunkVal, digitVal_digitChar _ hm, List.length_append,
        List.length_singleton]
      have h1 : (acc * 10 ^ (decDigitsAux fuel (n / 10)).length + n / 10) * 10 + n % 10
          = acc * (10 ^ (decDigitsAux fuel (n / 10)).length * 10) + (n / 10 * 10 + n % 10) := by
        ring
      have h2 : n / 10 * 10 + n % 10 = n := by omega
      rw [h1, h2, ← pow_succ]

theorem decDigitsAux_ne_nil :
    ∀ fuel n, n < fuel → decDigitsAux fuel n ≠ [] := by
  intro fuel n h
  cases fuel with
  | zero => omega
  | succ fuel =>
    by_cases hn : n < 10
    · simp [decDigitsAux, if_pos hn]
    · simp [decDigitsAux, if_neg hn]

theorem mem_decDigitsAux_digit :
    ∀ fuel n c, n < fuel → c ∈ decDigitsAux fuel n → ∃ d, d < 10 ∧ c = Nat.digitChar d := by
  intro fuel
  induction fuel with
  | zero => intro n c h; omega
  | succ fuel ih =>
    intro n c h hc
    by_cases hn : n < 10
    · simp only [decDigitsAux, if_pos hn, List.mem_singleton] at hc
      exact ⟨n, hn, hc⟩
    · simp only [decDigitsAux, if_neg hn, List.mem_append, List.mem_singleton] at hc
      rcases hc with hc | hc
      · have hrec : n / 10 < fuel := by
          have h1 : n / 10 < n := Nat.div_lt_self (by omega) (by omega)
          omega
        exact ih _ _ hrec hc
      · exact ⟨n % 10, Nat.mod_lt _ (by omega), hc⟩

theorem decDigits_ne_nil (n : Nat) : decDigits n ≠ [] :=
  decDigitsAux_ne_nil (n + 1) n (Nat.lt_succ_self n)

theorem dot_not_mem_decDigits (n : Nat) : '.' ∉ decDigits n := by
  intro hmem
  obtain ⟨d, hd, hc⟩ := mem_decDigitsAux_digit (n + 1) n '.' (Nat.lt_succ_self n) hmem
  exact digitChar_ne_dot d hd hc.symm

theorem parseChunk_decDigits (n : Nat) : parseChunk (decDigits n) = some n := by
  obtain ⟨c, rest, hc⟩ := List.exists_cons_of_ne_nil (decDigits_ne_nil n)
  have hval := decDigitsAux_length_chunkVal (n + 1) n 0 (Nat.lt_succ_self n)
  unfold decDigits at hc ⊢
  rw [hc] at hval ⊢
  simp only [parseChunk]
  rw [hval]
  simp

/-! ### Splitting on dots inverts joining with dots -/

theorem splitDots_no_dot (cs : Str) (h : '.' ∉ cs) : splitDots cs = [cs] := by
  induction cs with
  | nil => rfl
  | cons c rest ih =>
    have hc : ¬ c = '.' := fun hc => h (hc ▸ List.mem_cons_self c rest)
    have hrest : '.' ∉ rest := fun hm => h (List.mem_cons_of_mem c hm)
    simp only [splitDots, if_neg hc, ih hrest]

theorem splitDots_append (cs s : Str) (h1 : Str) (t1 : List Str) (h : '.' ∉ cs)
    (hs : splitDots s = h1 :: t1) : splitDots (cs ++ s) = (cs ++ h1) :: t1 := by
  induction cs with
  | nil => simpa using hs
  | cons c rest ih =>
    have hc : ¬ c = '.' := fun hc => h (hc ▸ List.mem_cons_self c rest)
    have hrest : '.' ∉ rest := fun hm => h (List.mem_cons_of_mem c hm)
    simp only [List.cons_append, splitDots, List.append_eq, if_neg hc, ih hrest]

theorem splitDots_joinDots :
    ∀ chunks : List Str, chunks ≠ [] → (∀ c ∈ chunks, '.' ∉ c) →
      splitDots (joinDots chunks) = chunks := by
  intro chunks
  induction chunks with
  | nil => intro h; exact absurd rfl h
  | cons c rest ih =>
    intro _ hdot
    cases rest with
    | nil =>
      simp only [joinDots]
      exact splitDots_no_dot c (hdot c (List.mem_cons_self _ _))
    | cons r rs =>
      have hrest : splitDots (joinDots (r :: rs)) = r :: rs :=
        ih (by simp) (fun x hx => hdot x (List.mem_cons_of_mem c hx))
      have hdotjoin : splitDots ('.' :: joinDots (r :: rs)) = [] :: r :: rs := by
        simp [splitDots, hrest]
      have := splitDots_append c ('.' :: joinDots (r :: rs)) [] (r :: rs)
        (hdot c (List.mem_cons_self _ _)) hdotjoin
      simpa [joinDots] using this

theorem parseChunks_decimals :
    ∀ parts : List Nat, parts ≠ [] →
      parseChunks (parts.map decDigits) = some (parts, false) := by
  intro parts
  induction parts with
  | nil => intro h; exact absurd rfl h
  | cons p rest ih =>
    intro _
    cases rest with
    | nil =>
      simp only [List.map, parseChunks, parseLastChunk, parseChunk_decDigits p]
    | cons q qs =>
      have hrest := ih (by simp)
      simp only [List.map] at hrest ⊢
      simp only [parseChunks, parseChunk_decDigits p, hrest]

/-- Round trip: the dotted string of a nonempty release tuple re-parses
to exactly that tuple, flagged as a final release. -/
theorem parseVersion_printVersion (parts : List Nat) (h : parts ≠ []) :
    parseVersion (printVersion parts) = some ⟨parts, false⟩ := by
  unfold parseVersion printVersion
  rw [splitDots_joinDots (parts.map decDigits)
    (by simpa using h)
    (by intro c hc
        simp only [List.mem_map] at hc
        obtain ⟨n, _, hn⟩ := hc
        exact hn ▸ dot_not_mem_decDigits n)]
  rw [parseChunks_decimals parts h]

theorem parsedRelease_printVersion (parts : List Nat) (h : parts ≠ []) :
    parsedRelease (printVersion parts) = parts := by
  unfold parsedRelease
  rw [parseVersion_printVersion parts h]
  rfl

theorem parseChunks_fst_ne_nil :
    ∀ l p, parseChunks l = some p → p.1 ≠ [] := by
  intro l
  induction l with
  | nil => intro p h; simp [parseChunks] at h
  | cons c rest ih =>
    intro p h
    cases rest with
    | nil =>
      simp only [parseChunks] at h
      cases hlast : parseLastChunk c with
      | none => rw [hlast] at h; exact absurd h (by simp)
      | some q => rw [hlast] at h; cases h; simp
    | cons r rs =>
      simp only [parseChunks] at h
      cases hc : parseChunk c with
      | none => rw [hc] at h; exact absurd h (by simp)
      | some n =>
        cases hrest : parseChunks (r :: rs) with
        | none => rw [hc, hrest] at h; exact absurd h (by simp)
        | some q => rw [hc, hrest] at h; cases h; simp

/-- Every successfully parsed version has a nonempty release tuple. -/
theorem parseVersion_release_ne_nil (s : Str) (v : VersionNumber)
    (h : parseVersion s = some v) : v.release ≠ [] := by
  unfold parseVersion at h
  cases hp : parseChunks (splitDots s) with
  | none => rw [hp] at h; exact absurd h (by simp)
  | some p =>
    rw [hp] at h
    cases h
    exact parseChunks_fst_ne_nil _ _ hp

/-! ### The release order: characterization and order lemmas -/

theorem gd_nil (i : Nat) : gd [] i = 0 := by
  simp [gd]

theorem gd_cons (a : Nat) (l : List Nat) :
    gd (a :: l) 0 = a ∧ ∀ i, gd (a :: l) (i + 1) = gd l i := by
  constructor
  · rfl
  · intro i; rfl

theorem gd_cons_zero (a : Nat) (l : List Nat) : gd (a :: l) 0 = a := rfl

theorem gd_cons_succ (a : Nat) (l : List Nat) (i : Nat) :
    gd (a :: l) (i + 1) = gd l i := rfl

theorem any_pos_iff (l : List Nat) :
    l.any (fun b => 0 < b) = true ↔ ∃ i, 0 < gd l i := by
  induction l with
  | nil => simp [gd]
  | cons b bs ih =>
    simp only [List.any_cons, Bool.or_eq_true, decide_eq_true_eq, ih]
    constructor
    · rintro (hb | ⟨i, hi⟩)
      · exact ⟨0, hb⟩
      · exact ⟨i + 1, hi⟩
    · rintro ⟨i, hi⟩
      cases i with
      | zero => exact Or.inl hi
      | succ j => exact Or.inr ⟨j, hi⟩

theorem zeros_lt_iff (l : List Nat) :
    l.any (fun b => 0 < b) = true ↔
      ∃ i, (∀ j, j < i → (0 : Nat) = gd l j) ∧ 0 < gd l i := by
  rw [any_pos_iff]
  constructor
  · rintro ⟨i, hi⟩
    induction i using Nat.strong_induction_on with
    | _ i ihs =>
      by_cases hall : ∀ j, j < i → gd l j = 0
      · exact ⟨i, fun j hj => (hall j hj).symm, hi⟩
      · push_neg at hall
        obtain ⟨j, hji, hj⟩ := hall
        exact ihs j hji (Nat.pos_of_ne_zero hj)
  · rintro ⟨i, _, hi⟩
    exact ⟨i, hi⟩

/-- Characterization of the release order: a is below b exactly when the
two zero-padded tuples agree up to some index where a's component is
strictly smaller. -/
theorem relLt_iff (a b : List Nat) :
    relLt a b = true ↔
      ∃ i, (∀ j, j < i → gd a j = gd b j) ∧ gd a i < gd b i := by
  induction a generalizing b with
  | nil =>
    simp only [relLt]
    rw [zeros_lt_iff]
    constructor
    · rintro ⟨i, hpre, hi⟩
      exact ⟨i, fun j hj => by rw [gd_nil]; exact hpre j hj, by rwa [gd_nil]⟩
    · rintro ⟨i, hpre, hi⟩
      exact ⟨i, fun j hj => by rw [← gd_nil j]; exact hpre j hj, by rwa [← gd_nil i]⟩
  | cons a as_ ih =>
    cases b with
    | nil =>
      simp only [relLt]
      constructor
      · intro h; exact absurd h (by simp)
      · rintro ⟨i, _, hi⟩
        rw [gd_nil] at hi
        omega
    | cons b bs =>
      simp only [relLt]
      by_cases hab : a < b
      · rw [if_pos hab]
        constructor
        · intro _
          exact ⟨0, fun j hj => by omega, hab⟩
        · intro _
          rfl
      · by_cases hba : b < a
        · rw [if_neg hab, if_pos hba]
          constructor
          · intro h
            exact absurd h (by simp)
          · rintro ⟨i, hpre, hi⟩
            exfalso
            cases i with
            | zero =>
              have ha0 : gd (a :: as_) 0 = a := rfl
              have hb0 : gd (b :: bs) 0 = b := rfl
              omega
            | succ j =>
              have h0 := hpre 0 (Nat.succ_pos j)
              have ha0 : gd (a :: as_) 0 = a := rfl
              have hb0 : gd (b :: bs) 0 = b := rfl
              omega
        · have heq : a = b := by omega
          subst heq
          simp only [if_neg hab, if_neg hba, ih bs]
          constructor
          · rintro ⟨i, hpre, hi⟩
            refine ⟨i + 1, fun j hj => ?_, hi⟩
            cases j with
            | zero => rfl
            | succ k => exact hpre k (by omega)
          · rintro ⟨i, hpre, hi⟩
            cases i with
            | zero =>
              have ha0 : gd (a :: as_) 0 = a := rfl
              have hb0 : gd (a :: bs) 0 = a := rfl
              omega
            | succ k =>
              exact ⟨k, fun j hj => hpre (j + 1) (by omega), hi⟩

theorem relLt_irrefl (a : List Nat) : relLt a a = false := by
  by_contra h
  rw [Bool.not_eq_false, relLt_iff] at h
  obtain ⟨i, _, hi⟩ := h
  omega

theorem relLt_asymm (a b : List Nat) (hab : relLt a b = true) :
    relLt b a = false := by
  by_contra h
  rw [Bool.not_eq_false, relLt_iff] at h
  rw [relLt_iff] at hab
  obtain ⟨i, hpre, hi⟩ := hab
  obtain ⟨i', hpre', hi'⟩ := h
  rcases Nat.lt_trichotomy i i' with hlt | heq | hgt
  · have := hpre' i hlt
    omega
  · subst heq
    omega
  · have := hpre i' hgt
    omega

theorem relLt_trans (a b c : List Nat) (hab : relLt a b = true)
    (hbc : relLt b c = true) : relLt a c = true := by
  rw [relLt_iff] at hab hbc ⊢
  obtain ⟨i, hpre, hi⟩ := hab
  obtain ⟨i', hpre', hi'⟩ := hbc
  rcases Nat.lt_trichotomy i i' with hlt | heq | hgt
  · refine ⟨i, fun j hj => ?_, ?_⟩
    · rw [hpre j hj, hpre' j (by omega)]
    · have := hpre' i hlt
      omega
  · subst heq
    exact ⟨i, fun j hj => by rw [hpre j hj, hpre' j hj], by omega⟩
  · refine ⟨i', fun j hj => ?_, ?_⟩
    · rw [hpre j (by omega), hpre' j hj]
    · have := hpre i' hgt
      omega

theorem relLt_connex (a b : List Nat) (hab : relLt a b = false)
    (hba : relLt b a = false) : ∀ i, gd a i = gd b i := by
  intro i
  induction i using Nat.strong_induction_on with
  | _ i ihs =>
    by_cases hall : ∀ j, j < i → gd a j = gd b j
    · rcases Nat.lt_trichotomy (gd a i) (gd b i) with hlt | heq | hgt
      · have h : relLt a b = true := (relLt_iff a b).mpr ⟨i, hall, hlt⟩
        rw [h] at hab
        exact absurd hab (by simp)
      · exact heq
      · have h : relLt b a = true :=
          (relLt_iff b a).mpr ⟨i, fun j hj => (hall j hj).symm, hgt⟩
        rw [h] at hba
        exact absurd hba (by simp)
    · push_neg at hall
      obtain ⟨j, hji, hj⟩ := hall
      exact absurd (ihs j hji) hj

/-- The release order only depends on the zero-padded components. -/
theorem relLt_congr (a b a' b' : List Nat) (ha : ∀ i, gd a i = gd a' i)
    (hb : ∀ i, gd b i = gd b' i) : relLt a b = relLt a' b' := by
  have h : relLt a b = true ↔ relLt a' b' = true := by
    rw [relLt_iff, relLt_iff]
    constructor
    · rintro ⟨i, hpre, hi⟩
      exact ⟨i, fun j hj => by rw [← ha j, ← hb j]; exact hpre j hj,
        by rw [← ha i, ← hb i]; exact hi⟩
    · rintro ⟨i, hpre, hi⟩
      exact ⟨i, fun j hj => by rw [ha j, hb j]; exact hpre j hj,
        by rw [ha i, hb i]; exact hi⟩
  cases hab : relLt a b <;> cases hab' : relLt a' b' <;> simp_all

/-- Zero padding does not change the padded components. -/
theorem gd_padTo (n : Nat) (l : List Nat) (i : Nat) : gd (padTo n l) i = gd l i := by
  unfold padTo gd
  by_cases h : i < l.length
  · exact List.getD_append _ _ _ _ h
  · push_neg at h
    rw [List.getD_append_right _ _ _ _ h, List.getD_eq_default _ _ h,
      List.getD_eq_getElem?_getD]
    exact List.getElem?_getD_replicate_default_eq 0 _ _

/-! ### The Python string order -/

theorem strLt_asymm (a b : Str) (h : strLt a b = true) : strLt b a = false := by
  induction a generalizing b with
  | nil =>
    cases b with
    | nil => simp [strLt] at h
    | cons d ds => simp [strLt]
  | cons c cs ih =>
    cases b with
    | nil => simp [strLt] at h
    | cons d ds =>
      simp only [strLt] at h ⊢
      by_cases hcd : c.toNat < d.toNat
      · rw [if_neg (by omega), if_pos hcd]
      · rw [if_neg hcd] at h
        by_cases hdc : d.toNat < c.toNat
        · rw [if_pos hdc] at h
          exact absurd h (by simp)
        · rw [if_neg hdc] at h
          rw [if_neg hcd, if_neg hdc]
          exact ih ds h

theorem strLt_trans (a b c : Str) (hab : strLt a b = true)
    (hbc : strLt b c = true) : strLt a c = true := by
  induction a generalizing b c with
  | nil =>
    cases c with
    | nil =>
      cases b with
      | nil => exact hab
      | cons e es => simp [strLt] at hbc
    | cons f fs => simp [strLt]
  | cons x xs ih =>
    cases b with
    | nil => simp [strLt] at hab
    | cons e es =>
      cases c with
      | nil => simp [strLt] at hbc
      | cons f fs =>
        simp only [strLt] at hab hbc ⊢
        by_cases hxe : x.toNat < e.toNat
        · by_cases hef : e.toNat < f.toNat
          · rw [if_pos (by omega)]
          · rw [if_neg hef] at hbc
            by_cases hfe : f.toNat < e.toNat
            · rw [if_pos hfe] at hbc
              exact absurd hbc (by simp)
            · rw [if_pos (by omega)]
        · rw [if_neg hxe] at hab
          by_cases hex : e.toNat < x.toNat
          · rw [if_pos hex] at hab
            exact absurd hab (by simp)
          · rw [if_neg hex] at hab
            have hxe2 : x.toNat = e.toNat := by omega
            by_cases hef : e.toNat < f.toNat
            · rw [if_pos (by omega)]
            · rw [if_neg hef] at hbc
              by_cases hfe : f.toNat < e.toNat
              · rw [if_pos hfe] at hbc
                exact absurd hbc (by simp)
              · rw [if_neg hfe] at hbc
                rw [if_neg (by omega), if_neg (by omega)]
                exact ih es fs hab hbc

theorem char_toNat_inj (a b : Char) (h : a.toNat = b.toNat) : a = b := by
  cases a with
  | mk av ap =>
    cases b with
    | mk bv bp =>
      simp only [Char.toNat] at h
      have : av = bv := by
        cases av
        cases bv
        simp only [UInt32.toNat] at h
        congr 1
        exact BitVec.toNat_injective h
      subst this
      rfl

theorem strLt_connex (a b : Str) (hab : strLt a b = false)
    (hba : strLt b a = false) : a = b := by
  induction a generalizing b with
  | nil =>
    cases b with
    | nil => rfl
    | cons d ds => simp [strLt] at hab
  | cons c cs ih =>
    cases b with
    | nil => simp [strLt] at hba
    | cons d ds =>
      simp only [strLt] at hab hba
      by_cases hcd : c.toNat < d.toNat
      · rw [if_pos hcd] at hab
        exact absurd hab (by simp)
      · rw [if_neg hcd] at hab
        by_cases hdc : d.toNat < c.toNat
        · rw [if_pos hdc] at hba
          exact absurd hba (by simp)
        · rw [if_neg hdc] at hab
          rw [if_neg (by omega), if_neg (by omega)] at hba
          rw [char_toNat_inj c d (by omega), ih ds hab hba]

/-! ### The two sort orders are transitive and total -/

theorem lexLe_trans (a b c : Str) (hab : lexLe a b = true)
    (hbc : lexLe b c = true) : lexLe a c = true := by
  unfold lexLe at hab hbc ⊢
  rw [Bool.not_eq_true'] at hab hbc ⊢
  by_contra hca
  rw [Bool.not_eq_false] at hca
  by_cases hbc2 : strLt b c = true
  · have h3 := strLt_trans b c a hbc2 hca
    rw [h3] at hab
    exact absurd hab (by simp)
  · rw [Bool.not_eq_true] at hbc2
    have hbceq : b = c := strLt_connex b c hbc2 hbc
    subst hbceq
    rw [hca] at hab
    exact absurd hab (by simp)

theorem lexLe_total (a b : Str) : (lexLe a b || lexLe b a) = true := by
  unfold lexLe
  by_cases h : strLt b a = true
  · have := strLt_asymm b a h
    simp [this]
  · rw [Bool.not_eq_true] at h
    simp [h]

theorem genLe_trans (a b c : Str) (hab : genLe a b = true)
    (hbc : genLe b c = true) : genLe a c = true := by
  unfold genLe at hab hbc ⊢
  rw [Bool.not_eq_true'] at hab hbc ⊢
  by_contra hca
  rw [Bool.not_eq_false] at hca
  by_cases hbc2 : relLt (parsedRelease b) (parsedRelease c) = true
  · have h3 := relLt_trans _ _ _ hbc2 hca
    rw [h3] at hab
    exact absurd hab (by simp)
  · rw [Bool.not_eq_true] at hbc2
    have heq : ∀ i, gd (parsedRelease b) i = gd (parsedRelease c) i :=
      relLt_connex _ _ hbc2 hbc
    have h3 : relLt (parsedRelease b) (parsedRelease a) = true := by
      rw [relLt_congr (parsedRelease b) (parsedRelease a) (parsedRelease c)
        (parsedRelease a) heq (fun i => rfl)]
      exact hca
    rw [h3] at hab
    exact absurd hab (by simp)

theorem genLe_total (a b : Str) : (genLe a b || genLe b a) = true := by
  unfold genLe
  by_cases h : relLt (parsedRelease b) (parsedRelease a) = true
  · have := relLt_asymm _ _ h
    simp [this]
  · rw [Bool.not_eq_true] at h
    simp [h]

/-! ### Insertion sort: membership and sortedness -/

theorem mem_insertLe {α : Type} (le : α → α → Bool) (a x : α) (l : List α) :
    x ∈ insertLe le a l ↔ x = a ∨ x ∈ l := by
  induction l with
  | nil => simp [insertLe]
  | cons b bs ih =>
    simp only [insertLe]
    by_cases h : le a b = true
    · simp [h]
    · rw [if_neg h]
      simp only [List.mem_cons, ih]
      tauto

theorem mem_sortLe {α : Type} (le : α → α → Bool) (x : α) (l : List α) :
    x ∈ sortLe le l ↔ x ∈ l := by
  induction l with
  | nil => simp [sortLe]
  | cons a as_ ih =>
    simp only [sortLe, mem_insertLe, ih, List.mem_cons]

theorem pairwise_insertLe {α : Type} (le : α → α → Bool)
    (htr : ∀ x y z, le x y = true → le y z = true → le x z = true)
    (hto : ∀ x y, (le x y || le y x) = true) (a : α) (l : List α)
    (h : l.Pairwise (fun x y => le x y = true)) :
    (insertLe le a l).Pairwise (fun x y => le x y = true) := by
  induction l with
  | nil => simp [insertLe]
  | cons b bs ih =>
    rw [List.pairwise_cons] at h
    simp only [insertLe]
    by_cases hab : le a b = true
    · rw [if_pos hab, List.pairwise_cons]
      refine ⟨?_, List.pairwise_cons.mpr h⟩
      intro x hx
      rcases List.mem_cons.mp hx with hx | hx
      · exact hx ▸ hab
      · exact htr a b x hab (h.1 x hx)
    · rw [if_neg hab, List.pairwise_cons]
      refine ⟨?_, ih h.2⟩
      intro x hx
      rcases (mem_insertLe le a x bs).mp hx with hx | hx
      · rw [hx]
        have h2 := hto a b
        rw [Bool.not_eq_true] at hab
        rw [hab] at h2
        simpa using h2
      · exact h.1 x hx

theorem pairwise_sortLe {α : Type} (le : α → α → Bool)
    (htr : ∀ x y z, le x y = true → le y z = true → le x z = true)
    (hto : ∀ x y, (le x y || le y x) = true) (l : List α) :
    (sortLe le l).Pairwise (fun x y => le x y = true) := by
  induction l with
  | nil => simp [sortLe]
  | cons a as_ ih =>
    exact pairwise_insertLe le htr hto a _ ih

/-! ### Python min and max pick an element of the list -/

theorem foldl_choice {α : Type} (g : α → α → α)
    (hg : ∀ a w, g a w = a ∨ g a w = w) :
    ∀ (vs : List α) (acc : α), vs.foldl g acc = acc ∨ vs.foldl g acc ∈ vs := by
  intro vs
  induction vs with
  | nil =>
    intro acc
    left
    rfl
  | cons v vs ih =>
    intro acc
    simp only [List.foldl_cons]
    rcases ih (g acc v) with h | h
    · rcases hg acc v with h2 | h2
      · left
        rw [h, h2]
      · right
        rw [h, h2]
        exact List.mem_cons_self v vs
    · right
      exact List.mem_cons_of_mem _ h

theorem pyMin_mem (g : List VersionNumber) (h : g ≠ []) : pyMin g ∈ g := by
  cases g with
  | nil => exact absurd rfl h
  | cons v vs =>
    simp only [pyMin]
    rcases foldl_choice (fun acc w => if vLt w acc then w else acc)
      (fun a w => by by_cases hc : vLt w a = true <;> simp [hc]) vs v with h2 | h2
    · rw [h2]
      exact List.mem_cons_self v vs
    · exact List.mem_cons_of_mem _ h2

theorem pyMax_mem (g : List VersionNumber) (h : g ≠ []) : pyMax g ∈ g := by
  cases g with
  | nil => exact absurd rfl h
  | cons v vs =>
    simp only [pyMax]
    rcases foldl_choice (fun acc w => if vLt acc w then w else acc)
      (fun a w => by by_cases hc : vLt a w = true <;> simp [hc]) vs v with h2 | h2
    · rw [h2]
      exact List.mem_cons_self v vs
    · exact List.mem_cons_of_mem _ h2

/-! ### Padded component lookups of the constructed tuples -/

theorem gd_take (l : List Nat) (i j : Nat) (h : j < i) : gd (l.take i) j = gd l j := by
  unfold gd
  rw [List.getD_eq_getElem?_getD, List.getD_eq_getElem?_getD, List.getElem?_take,
    if_pos h]

theorem gd_append_left (l r : List Nat) (j : Nat) (h : j < l.length) :
    gd (l ++ r) j = gd l j := List.getD_append _ _ _ _ h

theorem gd_append_right (l r : List Nat) (j : Nat) (h : l.length ≤ j) :
    gd (l ++ r) j = gd r (j - l.length) := List.getD_append_right _ _ _ _ h

theorem gd_replicate_zero (k j : Nat) : gd (List.replicate k 0) j = 0 := by
  unfold gd
  rw [List.getD_eq_getElem?_getD]
  exact List.getElem?_getD_replicate_default_eq 0 _ _

theorem gd_set_ne (l : List Nat) (i j v : Nat) (h : i ≠ j) :
    gd (l.set i v) j = gd l j := by
  unfold gd
  rw [List.getD_eq_getElem?_getD, List.getD_eq_getElem?_getD, List.getElem?_set_ne h]

theorem gd_set_self (l : List Nat) (i v : Nat) (h : i < l.length) :
    gd (l.set i v) i = v := by
  unfold gd
  rw [List.getD_eq_getElem?_getD, List.getElem?_set_self h]
  rfl

/-- The padded components of a midpoint tuple: the prefix of p, the new
value at index i, zeros beyond. -/
theorem gd_midShape (p : List Nat) (i v k : Nat) (hi : i ≤ p.length) :
    (∀ j, j < i → gd (p.take i ++ v :: List.replicate k 0) j = gd p j)
      ∧ gd (p.take i ++ v :: List.replicate k 0) i = v
      ∧ ∀ j, i < j → gd (p.take i ++ v :: List.replicate k 0) j = 0 := by
  have hlen : (p.take i).length = i := by
    rw [List.length_take]
    omega
  refine ⟨?_, ?_, ?_⟩
  · intro j hj
    rw [gd_append_left _ _ _ (by omega), gd_take _ _ _ hj]
  · rw [gd_append_right _ _ _ (by omega), hlen, Nat.sub_self]
    rfl
  · intro j hj
    rw [gd_append_right _ _ _ (by omega), hlen]
    have h2 : j - i = (j - i - 1) + 1 := by omega
    rw [h2, (gd_cons v (List.replicate k 0)).2 _]
    exact gd_replicate_zero k _

/-! ### The first-difference scan -/

theorem firstDiffIdx_spec :
    ∀ (a b : List Nat) (i : Nat), firstDiffIdx a b = some i →
      i < a.length ∧ i < b.length ∧ (∀ j, j < i → gd a j = gd b j)
        ∧ gd a i ≠ gd b i := by
  intro a
  induction a with
  | nil =>
    intro b i h
    cases b <;> simp [firstDiffIdx] at h
  | cons x xs ih =>
    intro b i h
    cases b with
    | nil => simp [firstDiffIdx] at h
    | cons y ys =>
      simp only [firstDiffIdx] at h
      by_cases hxy : x = y
      · rw [if_pos hxy, Option.map_eq_some'] at h
        obtain ⟨i', hi', rfl⟩ := h
        obtain ⟨h1, h2, h3, h4⟩ := ih ys i' hi'
        subst hxy
        refine ⟨by simpa using h1, by simpa using h2, ?_, h4⟩
        intro j hj
        cases j with
        | zero => rfl
        | succ j' => exact h3 j' (by omega)
      · rw [if_neg hxy] at h
        cases h
        exact ⟨by simp, by simp, fun j hj => by omega, hxy⟩

/-! ### The two midpoint scans -/

theorem findMidGen_gap_le_one :
    ∀ (a b : List Nat) (i : Nat), firstDiffIdx a b = some i →
      gd b i - gd a i ≤ 1 → findMidGen a b = some (a.take (i + 1) ++ [5]) := by
  intro a
  induction a with
  | nil =>
    intro b i h
    cases b <;> simp [firstDiffIdx] at h
  | cons x xs ih =>
    intro b i h hgap
    cases b with
    | nil => simp [firstDiffIdx] at h
    | cons y ys =>
      simp only [firstDiffIdx] at h
      simp only [findMidGen]
      by_cases hxy : x = y
      · rw [if_pos hxy, Option.map_eq_some'] at h
        obtain ⟨i', hi', rfl⟩ := h
        rw [if_pos hxy, ih ys i' hi' hgap]
        simp [List.take_succ_cons]
      · rw [if_neg hxy] at h
        cases h
        have hx0 : gd (x :: xs) 0 = x := rfl
        have hy0 : gd (y :: ys) 0 = y := rfl
        rw [if_neg hxy, if_neg (by omega)]
        simp [List.take_succ_cons]

theorem findMidGen_gap_big :
    ∀ (a b : List Nat) (i : Nat), firstDiffIdx a b = some i →
      1 < gd b i - gd a i →
      findMidGen a b = some (a.take i ++
        (gd a i + (gd b i - gd a i) / 2) :: List.replicate (a.length - (i + 1)) 0) := by
  intro a
  induction a with
  | nil =>
    intro b i h
    cases b <;> simp [firstDiffIdx] at h
  | cons x xs ih =>
    intro b i h hgap
    cases b with
    | nil => simp [firstDiffIdx] at h
    | cons y ys =>
      simp only [firstDiffIdx] at h
      simp only [findMidGen]
      by_cases hxy : x = y
      · rw [if_pos hxy, Option.map_eq_some'] at h
        obtain ⟨i', hi', rfl⟩ := h
        rw [if_pos hxy, ih ys i' hi' hgap]
        simp only [Option.map_some', List.take_succ_cons, List.length_cons,
          List.cons_append, gd_cons_succ, Option.some.injEq, List.cons.injEq,
          true_and]
        have hlen : xs.length + 1 - (i' + 1 + 1) = xs.length - (i' + 1) := by
          omega
        rw [hlen]
      · rw [if_neg hxy] at h
        cases h
        have hx0 : gd (x :: xs) 0 = x := rfl
        have hy0 : gd (y :: ys) 0 = y := rfl
        rw [if_neg hxy, if_pos (by omega)]
        have hlen : (x :: xs).length - (0 + 1) = xs.length := by simp
        rw [List.take_zero, List.nil_append, hx0, hy0, hlen]

theorem findMidTV_gap_big :
    ∀ (a b : List Nat) (i : Nat), firstDiffIdx a b = some i →
      1 < gd b i - gd a i →
      findMidTV a b = some (a.take i ++
        ((gd a i + gd b i) / 2) :: List.replicate (a.length - (i + 1)) 0) := by
  intro a
  induction a with
  | nil =>
    intro b i h
    cases b <;> simp [firstDiffIdx] at h
  | cons x xs ih =>
    intro b i h hgap
    cases b with
    | nil => simp [firstDiffIdx] at h
    | cons y ys =>
      simp only [firstDiffIdx] at h
      simp only [findMidTV]
      by_cases hxy : x = y
      · rw [if_pos hxy, Option.map_eq_some'] at h
        obtain ⟨i', hi', rfl⟩ := h
        rw [if_pos hxy, ih ys i' hi' hgap]
        simp only [Option.map_some', List.take_succ_cons, List.length_cons,
          List.cons_append, gd_cons_succ, Option.some.injEq, List.cons.injEq,
          true_and]
        have hlen : xs.length + 1 - (i' + 1 + 1) = xs.length - (i' + 1) := by
          omega
        rw [hlen]
      · rw [if_neg hxy] at h
        cases h
        have hx0 : gd (x :: xs) 0 = x := rfl
        have hy0 : gd (y :: ys) 0 = y := rfl
        rw [if_neg hxy, if_pos (by omega)]
        have hlen : (x :: xs).length - (0 + 1) = xs.length := by simp
        rw [List.take_zero, List.nil_append, hx0, hy0, hlen]

theorem findMidTV_gap_le_one :
    ∀ (a b : List Nat) (i : Nat), firstDiffIdx a b = some i →
      gd b i - gd a i ≤ 1 → findMidTV a b = none := by
  intro a
  induction a with
  | nil =>
    intro b i h
    cases b <;> simp [firstDiffIdx] at h
  | cons x xs ih =>
    intro b i h hgap
    cases b with
    | nil => simp [firstDiffIdx] at h
    | cons y ys =>
      simp only [firstDiffIdx] at h
      simp only [findMidTV]
      by_cases hxy : x = y
      · rw [if_pos hxy, Option.map_eq_some'] at h
        obtain ⟨i', hi', rfl⟩ := h
        rw [if_pos hxy, ih ys i' hi' hgap]
        rfl
      · rw [if_neg hxy] at h
        cases h
        have hx0 : gd (x :: xs) 0 = x := rfl
        have hy0 : gd (y :: ys) 0 = y := rfl
        rw [if_neg hxy, if_neg (by omega)]

theorem findMidTV_some :
    ∀ (a b mid : List Nat), findMidTV a b = some mid →
      ∃ i, firstDiffIdx a b = some i ∧ 1 < gd b i - gd a i ∧
        mid = a.take i ++
          ((gd a i + gd b i) / 2) :: List.replicate (a.length - (i + 1)) 0 := by
  intro a
  induction a with
  | nil =>
    intro b mid h
    cases b <;> simp [findMidTV] at h
  | cons x xs ih =>
    intro b mid h
    cases b with
    | nil => simp [findMidTV] at h
    | cons y ys =>
      simp only [findMidTV] at h
      by_cases hxy : x = y
      · rw [if_pos hxy, Option.map_eq_some'] at h
        obtain ⟨mid', hmid', rfl⟩ := h
        obtain ⟨i', h1, h2, h3⟩ := ih ys mid' hmid'
        refine ⟨i' + 1, ?_, h2, ?_⟩
        · simp only [firstDiffIdx, if_pos hxy, h1, Option.map_some']
        · rw [h3]
          simp only [List.take_succ_cons, List.cons_append, gd_cons_succ,
            List.length_cons]
          have hlen : xs.length + 1 - (i' + 1 + 1) = xs.length - (i' + 1) := by
            omega
          rw [hlen]
      · rw [if_neg hxy] at h
        by_cases hgap : 1 < y - x
        · rw [if_pos hgap] at h
          cases h
          refine ⟨0, by simp [firstDiffIdx, hxy], hgap, ?_⟩
          simp only [List.take_zero, List.nil_append, gd_cons_zero,
            List.length_cons, Nat.add_sub_cancel]
        · rw [if_neg hgap] at h
          exact absurd h (by simp)

theorem findMidGen_some :
    ∀ (a b mid : List Nat), findMidGen a b = some mid →
      ∃ i, firstDiffIdx a b = some i ∧ gd a i ≠ gd b i ∧
        ((1 < gd b i - gd a i ∧
          mid = a.take i ++
            (gd a i + (gd b i - gd a i) / 2) :: List.replicate (a.length - (i + 1)) 0)
         ∨ (gd b i - gd a i ≤ 1 ∧ mid = a.take (i + 1) ++ [5])) := by
  intro a
  induction a with
  | nil =>
    intro b mid h
    cases b <;> simp [findMidGen] at h
  | cons x xs ih =>
    intro b mid h
    cases b with
    | nil => simp [findMidGen] at h
    | cons y ys =>
      simp only [findMidGen] at h
      by_cases hxy : x = y
      · rw [if_pos hxy, Option.map_eq_some'] at h
        obtain ⟨mid', hmid', rfl⟩ := h
        obtain ⟨i', h1, hne, h2⟩ := ih ys mid' hmid'
        refine ⟨i' + 1, ?_, hne, ?_⟩
        · simp only [firstDiffIdx, if_pos hxy, h1, Option.map_some']
        · rcases h2 with ⟨hg, hm⟩ | ⟨hg, hm⟩
          · left
            refine ⟨hg, ?_⟩
            rw [hm]
            simp only [List.take_succ_cons, List.cons_append, gd_cons_succ,
              List.length_cons]
            have hlen : xs.length + 1 - (i' + 1 + 1) = xs.length - (i' + 1) := by
              omega
            rw [hlen]
          · right
            refine ⟨hg, ?_⟩
            rw [hm]
            simp [List.take_succ_cons]
      · rw [if_neg hxy] at h
        by_cases hgap : 1 < y - x
        · rw [if_pos hgap] at h
          cases h
          refine ⟨0, by simp [firstDiffIdx, hxy], hxy, Or.inl ⟨hgap, ?_⟩⟩
          simp only [List.take_zero, List.nil_append, gd_cons_zero,
            List.length_cons, Nat.add_sub_cancel]
        · rw [if_neg hgap] at h
          cases h
          have hx0 : gd (x :: xs) 0 = x := rfl
          have hy0 : gd (y :: ys) 0 = y := rfl
          refine ⟨0, by simp [firstDiffIdx, hxy], hxy, Or.inr ⟨by omega, ?_⟩⟩
          simp [List.take_succ_cons]

/-! ### The trailing-zero trim of verify_versions.py -/

theorem trimAux_suffix :
    ∀ (r : List Nat) (n : Nat),
      ∃ k, k ≤ r.length ∧ (k + 3 ≤ n ∨ k = 0) ∧ trimAux r n = r.drop k ∧
        ∀ c ∈ r.take k, c = 0 := by
  intro r
  induction r with
  | nil =>
    intro n
    exact ⟨0, by simp, Or.inr rfl, rfl, by simp⟩
  | cons a rest ih =>
    intro n
    cases a with
    | zero =>
      by_cases hn : 3 < n
      · obtain ⟨k', h1, h2, h3, h4⟩ := ih (n - 1)
        have hk : k' + 1 + 3 ≤ n := by
          rcases h2 with h2 | h2 <;> omega
        refine ⟨k' + 1, by simp only [List.length_cons]; omega, Or.inl hk, ?_, ?_⟩
        · simp only [trimAux, if_pos hn]
          exact h3
        · intro c hc
          rw [List.take_succ_cons] at hc
          rcases List.mem_cons.mp hc with hc | hc
          · exact hc
          · exact h4 c hc
      · exact ⟨0, by simp, Or.inr rfl, by simp [trimAux, hn], by simp⟩
    | succ b =>
      exact ⟨0, by simp, Or.inr rfl, by simp [trimAux], by simp⟩

theorem trimMid_take (l : List Nat) :
    ∃ m, m ≤ l.length ∧ (l ≠ [] → 0 < m) ∧ trimMid l = l.take m ∧
      ∀ j, m ≤ j → gd l j = 0 := by
  obtain ⟨k, h1, h2, h3, h4⟩ := trimAux_suffix l.reverse l.length
  rw [List.length_reverse] at h1
  refine ⟨l.length - k, by omega, ?_, ?_, ?_⟩
  · intro hne
    have hlen : 0 < l.length := List.length_pos.mpr hne
    rcases h2 with h2 | h2 <;> omega
  · unfold trimMid
    rw [h3]
    have hrt := List.reverse_take (l := l) (n := l.length - k)
    have hk : l.length - (l.length - k) = k := by omega
    rw [hk] at hrt
    rw [← hrt, List.reverse_reverse]
  · intro j hj
    by_cases hjl : j < l.length
    · have hrev : l.reverse.take k = (l.drop (l.length - k)).reverse := by
        rw [List.reverse_drop]
        congr 1
        omega
      unfold gd
      rw [List.getD_eq_getElem?_getD]
      cases hq : getElem? l j with
      | none => rfl
      | some c =>
        have hidx : l.length - k + (j - (l.length - k)) = j := by omega
        have hcmem : c ∈ l.drop (l.length - k) := by
          apply List.getElem?_mem (n := j - (l.length - k))
          rw [List.getElem?_drop, hidx]
          exact hq
        have hc0 : c = 0 := by
          apply h4
          rw [hrev]
          exact List.mem_reverse.mpr hcmem
        simp [hc0]
    · push_neg at hjl
      unfold gd
      rw [List.getD_eq_default _ _ hjl]

theorem gd_trimMid (l : List Nat) (j : Nat) : gd (trimMid l) j = gd l j := by
  obtain ⟨m, h1, _, h3, h4⟩ := trimMid_take l
  rw [h3]
  by_cases hj : j < m
  · exact gd_take l m j hj
  · push_neg at hj
    rw [h4 j hj]
    unfold gd
    rw [List.getD_eq_default]
    rw [List.length_take]
    omega

theorem trimMid_ne_nil (l : List Nat) (h : l ≠ []) : trimMid l ≠ [] := by
  obtain ⟨m, h1, h2, h3, h4⟩ := trimMid_take l
  intro hnil
  rw [h3, List.take_eq_nil_iff] at hnil
  rcases hnil with h0 | h0
  · have := h2 h
    omega
  · exact h h0

theorem trimMid_last_pos (xs : List Nat) (v : Nat) (hv : 0 < v) :
    trimMid (xs ++ [v]) = xs ++ [v] := by
  cases v with
  | zero => omega
  | succ w =>
    unfold trimMid
    rw [List.reverse_append]
    simp [trimAux]

/-! ### The below-minimum decrement scan -/

theorem gd_eq_zero_of_all_zero (l : List Nat) (h : ∀ c ∈ l, c = 0) (j : Nat) :
    gd l j = 0 := by
  unfold gd
  rw [List.getD_eq_getElem?_getD]
  cases hq : getElem? l j with
  | none => rfl
  | some c => simp [h c (List.getElem?_mem hq)]

theorem decLastPos_none_iff :
    ∀ l : List Nat, decLastPos l = none ↔ ∀ c ∈ l, c = 0 := by
  intro l
  induction l with
  | nil => simp [decLastPos]
  | cons a as_ ih =>
    simp only [decLastPos]
    cases hrec : decLastPos as_ with
    | some r =>
      constructor
      · intro h
        exact absurd h (by simp)
      · intro h
        have hz : decLastPos as_ = none :=
          ih.mpr (fun c hc => h c (List.mem_cons_of_mem _ hc))
        rw [hz] at hrec
        exact absurd hrec (by simp)
    | none =>
      by_cases ha : 0 < a
      · rw [if_pos ha]
        constructor
        · intro h
          exact absurd h (by simp)
        · intro h
          have := h a (List.mem_cons_self _ _)
          omega
      · rw [if_neg ha]
        constructor
        · intro _ c hc
          rcases List.mem_cons.mp hc with hc | hc
          · omega
          · exact ih.mp hrec c hc
        · intro _
          rfl

theorem decLastPos_some :
    ∀ (l r : List Nat), decLastPos l = some r →
      ∃ i, i < l.length ∧ 0 < gd l i ∧ (∀ j, i < j → gd l j = 0) ∧
        r = l.set i (gd l i - 1) := by
  intro l
  induction l with
  | nil =>
    intro r h
    simp [decLastPos] at h
  | cons a as_ ih =>
    intro r h
    simp only [decLastPos] at h
    cases hrec : decLastPos as_ with
    | some r' =>
      rw [hrec] at h
      cases h
      obtain ⟨i, h1, h2, h3, h4⟩ := ih r' hrec
      refine ⟨i + 1, by simp only [List.length_cons]; omega, h2, ?_, ?_⟩
      · intro j hj
        cases j with
        | zero => omega
        | succ j' =>
          rw [gd_cons_succ]
          exact h3 j' (by omega)
      · rw [gd_cons_succ, List.set_cons_succ, ← h4]
    | none =>
      rw [hrec] at h
      by_cases ha : 0 < a
      · rw [if_pos ha] at h
        cases h
        have hz : ∀ c ∈ as_, c = 0 := (decLastPos_none_iff as_).mp hrec
        refine ⟨0, by simp, ha, ?_, ?_⟩
        · intro j hj
          cases j with
          | zero => omega
          | succ j' =>
            rw [gd_cons_succ]
            exact gd_eq_zero_of_all_zero as_ hz j'
        · rw [List.set_cons_zero, gd_cons_zero]
      · rw [if_neg ha] at h
        exact absurd h (by simp)

theorem relLt_set_dec (l : List Nat) (i : Nat) (hi : i < l.length)
    (hpos : 0 < gd l i) : relLt (l.set i (gd l i - 1)) l = true := by
  rw [relLt_iff]
  refine ⟨i, ?_, ?_⟩
  · intro j hj
    exact gd_set_ne l i j _ (by omega)
  · rw [gd_set_self l i _ hi]
    omega

/-! ### Well-formedness of extracted versions -/

theorem boundVersions_wf (o : Option Str) (v : VersionNumber)
    (h : v ∈ boundVersions o) : v.release ≠ [] := by
  cases o with
  | none => simp [boundVersions] at h
  | some s =>
    simp only [boundVersions] at h
    by_cases hs : s = []
    · rw [if_pos hs] at h
      simp at h
    · rw [if_neg hs] at h
      cases hp : parseVersion s with
      | none =>
        rw [hp] at h
        simp at h
      | some w =>
        rw [hp] at h
        simp only [] at h
        by_cases hpre : w.isPre = true
        · rw [if_pos hpre] at h
          simp at h
        · rw [if_neg hpre] at h
          rw [List.mem_singleton] at h
          subst h
          exact parseVersion_release_ne_nil s v hp

theorem extract_release_ne_nil (data : List Entry) (v : VersionNumber)
    (h : v ∈ extractVersions data) : v.release ≠ [] := by
  unfold extractVersions at h
  rw [List.mem_flatMap] at h
  obtain ⟨e, _, hmem⟩ := h
  rcases List.mem_append.mp hmem with hm | hm <;> exact boundVersions_wf _ _ hm

theorem groupOf_sub (vs : List VersionNumber) (m : Nat) (v : VersionNumber)
    (h : v ∈ groupOf vs m) : v ∈ vs := by
  unfold groupOf at h
  exact (List.mem_filter.mp h).1

theorem groupOf_ne_nil (vs : List VersionNumber) (m : Nat) (h : m ∈ majors vs) :
    groupOf vs m ≠ [] := by
  unfold majors at h
  rw [List.mem_dedup, List.mem_map] at h
  obtain ⟨v, hv, hm⟩ := h
  have : v ∈ groupOf vs m := by
    unfold groupOf
    rw [List.mem_filter]
    exact ⟨hv, by simp [hm]⟩
  exact List.ne_nil_of_mem this

theorem majors_ne_nil (vs : List VersionNumber) (m : Nat) (h : m ∈ majors vs) :
    vs ≠ [] := by
  unfold majors at h
  rw [List.mem_dedup, List.mem_map] at h
  obtain ⟨v, hv, _⟩ := h
  exact List.ne_nil_of_mem hv

/-! ### Membership in the two outputs -/

theorem mem_generate_candidates (data : List Entry) (s : Str) :
    s ∈ generate_candidates data ↔
      extractVersions data ≠ [] ∧
        ∃ m ∈ majors (extractVersions data),
          s ∈ groupCandsGen (groupOf (extractVersions data) m) := by
  by_cases hv : extractVersions data = []
  · simp [generate_candidates, hv]
  · simp only [generate_candidates, if_neg hv, mem_sortLe, List.mem_dedup,
      List.mem_flatMap]
    constructor
    · intro h
      exact ⟨hv, h⟩
    · intro h
      exact h.2

theorem mem_get_version_candidates (data : List Entry) (s : Str) :
    s ∈ get_version_candidates data ↔
      extractVersions data ≠ [] ∧
        ∃ m ∈ majors (extractVersions data),
          s ∈ groupCandsTV (groupOf (extractVersions data) m) := by
  by_cases hv : extractVersions data = []
  · simp [get_version_candidates, hv]
  · simp only [get_version_candidates, if_neg hv, mem_sortLe, List.mem_dedup,
      List.mem_flatMap]
    constructor
    · intro h
      exact ⟨hv, h⟩
    · intro h
      exact h.2

/-! ### Shapes of the per-group candidates -/

theorem preMinCand_shape (m : VersionNumber) (hrel : m.release ≠ []) (s : Str)
    (h : preMinCand m = some s) :
    ∃ parts, parts ≠ [] ∧ s = printVersion parts ∧ relLt parts m.release = true := by
  unfold preMinCand at h
  rw [Option.map_eq_some'] at h
  obtain ⟨r, hr, hs⟩ := h
  obtain ⟨i, h1, h2, h3, h4⟩ := decLastPos_some _ _ hr
  refine ⟨r, ?_, hs.symm, ?_⟩
  · intro hnil
    rw [h4] at hnil
    have := List.length_set m.release i (gd m.release i - 1)
    rw [hnil] at this
    simp only [List.length_nil] at this
    exact hrel (List.eq_nil_of_length_eq_zero this.symm)
  · rw [h4]
    exact relLt_set_dec _ _ h1 h2

theorem midCandGen_shape (a b : VersionNumber) (s : Str)
    (h : midCandGen a b = some s) :
    ∃ parts, parts ≠ [] ∧ s = printVersion parts := by
  unfold midCandGen at h
  by_cases hlt : vLt a b = true
  · rw [if_pos hlt] at h
    cases hm : findMidGen (padTo (lenMax a b) a.release) (padTo (lenMax a b) b.release) with
    | none =>
      rw [hm] at h
      exact absurd h (by simp)
    | some mid =>
      rw [hm] at h
      simp only [Option.some.injEq] at h
      obtain ⟨i, _, _, hcase⟩ := findMidGen_some _ _ _ hm
      have hmid : mid ≠ [] := by
        rcases hcase with ⟨_, hm2⟩ | ⟨_, hm2⟩ <;> rw [hm2] <;> simp
      exact ⟨trimMid mid, trimMid_ne_nil mid hmid, h.symm⟩
  · rw [if_neg hlt] at h
    exact absurd h (by simp)

theorem midCandTV_shape (a b : VersionNumber) (s : Str)
    (h : midCandTV a b = some s) :
    ∃ parts, parts ≠ [] ∧ s = printVersion parts := by
  unfold midCandTV at h
  by_cases hlt : vLt a b = true
  · rw [if_pos hlt] at h
    cases hm : findMidTV (padTo (lenMax a b) a.release) (padTo (lenMax a b) b.release) with
    | none =>
      rw [hm] at h
      exact absurd h (by simp)
    | some mid =>
      rw [hm] at h
      simp only [Option.some.injEq] at h
      obtain ⟨i, _, _, hm2⟩ := findMidTV_some _ _ _ hm
      have hmid : mid ≠ [] := by
        rw [hm2]
        simp
      exact ⟨mid, hmid, h.symm⟩
  · rw [if_neg hlt] at h
    exact absurd h (by simp)

theorem groupCandsGen_cases (g : List VersionNumber) (s : Str)
    (h : s ∈ groupCandsGen g) :
    s = strV (pyMin g) ∨ s = strV (pyMax g) ∨ preMinCand (pyMin g) = some s ∨
      midCandGen (pyMin g) (pyMax g) = some s := by
  simp only [groupCandsGen, List.cons_append, List.nil_append, List.mem_cons,
    List.mem_append, Option.mem_toList, Option.mem_def] at h
  tauto

theorem groupCandsTV_cases (g : List VersionNumber) (s : Str)
    (h : s ∈ groupCandsTV g) :
    s = strV (pyMax g) ∨ preMinCand (pyMin g) = some s ∨
      midCandTV (pyMin g) (pyMax g) = some s := by
  simp only [groupCandsTV, List.mem_append, List.mem_cons, List.mem_singleton,
    Option.mem_toList, Option.mem_def] at h
  tauto

theorem groupCands_shape (g : List VersionNumber) (hg : g ≠ [])
    (hwf : ∀ v ∈ g, v.release ≠ []) (s : Str)
    (h : s ∈ groupCandsGen g ∨ s ∈ groupCandsTV g) :
    ∃ parts, parts ≠ [] ∧ s = printVersion parts := by
  have hmin : (pyMin g).release ≠ [] := hwf _ (pyMin_mem g hg)
  have hmax : (pyMax g).release ≠ [] := hwf _ (pyMax_mem g hg)
  rcases h with h | h
  · rcases groupCandsGen_cases g s h with h | h | h | h
    · exact ⟨(pyMin g).release, hmin, h⟩
    · exact ⟨(pyMax g).release, hmax, h⟩
    · obtain ⟨p, h1, h2, _⟩ := preMinCand_shape _ hmin _ h
      exact ⟨p, h1, h2⟩
    · exact midCandGen_shape _ _ _ h
  · rcases groupCandsTV_cases g s h with h | h | h
    · exact ⟨(pyMax g).release, hmax, h⟩
    · obtain ⟨p, h1, h2, _⟩ := preMinCand_shape _ hmin _ h
      exact ⟨p, h1, h2⟩
    · exact midCandTV_shape _ _ _ h

/-- Every output string of either solver is the dotted print of a
nonempty release tuple. -/
theorem out_shape (data : List Entry) (s : Str)
    (h : s ∈ generate_candidates data ∨ s ∈ get_version_candidates data) :
    ∃ parts, parts ≠ [] ∧ s = printVersion parts := by
  have hmain : ∃ m, m ∈ majors (extractVersions data) ∧
      (s ∈ groupCandsGen (groupOf (extractVersions data) m)
        ∨ s ∈ groupCandsTV (groupOf (extractVersions data) m)) := by
    rcases h with h | h
    · obtain ⟨_, m, hm, hmem⟩ := (mem_generate_candidates data s).mp h
      exact ⟨m, hm, Or.inl hmem⟩
    · obtain ⟨_, m, hm, hmem⟩ := (mem_get_version_candidates data s).mp h
      exact ⟨m, hm, Or.inr hmem⟩
  obtain ⟨m, hm, hmem⟩ := hmain
  apply groupCands_shape _ (groupOf_ne_nil _ _ hm) _ s hmem
  intro v hv
  exact extract_release_ne_nil data v (groupOf_sub _ _ _ hv)

/-! ### Strict betweenness of a midpoint tuple -/

theorem mid_between (p q mid : List Nat) (i v : Nat)
    (hip : i ≤ p.length)
    (hmid : mid = p.take i ++ v :: List.replicate (p.length - (i + 1)) 0)
    (hpre : ∀ j, j < i → gd p j = gd q j)
    (hlo : gd p i < v) (hhi : v < gd q i) :
    relLt p mid = true ∧ relLt mid q = true := by
  obtain ⟨hsh1, hsh2, hsh3⟩ := gd_midShape p i v (p.length - (i + 1)) hip
  subst hmid
  constructor
  · rw [relLt_iff]
    refine ⟨i, fun j hj => (hsh1 j hj).symm, ?_⟩
    rw [hsh2]
    exact hlo
  · rw [relLt_iff]
    refine ⟨i, fun j hj => ?_, ?_⟩
    · rw [hsh1 j hj, hpre j hj]
    · rw [hsh2]
      exact hhi

/-! ### Scrubbing pre-release or malformed bounds changes nothing -/

theorem parseVersion_nil : parseVersion [] = none := rfl

theorem boundVersions_scrubPre (o : Option Str) :
    boundVersions (scrubPre o) = boundVersions o := by
  cases o with
  | none => rfl
  | some s =>
    simp only [scrubPre]
    cases hp : parseVersion s with
    | none => rfl
    | some v =>
      simp only []
      by_cases hpre : v.isPre = true
      · rw [if_pos hpre]
        have hs : s ≠ [] := by
          intro hnil
          rw [hnil, parseVersion_nil] at hp
          exact absurd hp (by simp)
        simp only [boundVersions, if_neg hs, hp, if_pos hpre]
      · rw [if_neg hpre]

theorem boundVersions_scrubBad (o : Option Str) :
    boundVersions (scrubBad o) = boundVersions o := by
  cases o with
  | none => rfl
  | some s =>
    simp only [scrubBad]
    cases hp : parseVersion s with
    | none =>
      by_cases hs : s = []
      · simp only [boundVersions, if_pos hs]
      · simp only [boundVersions, if_neg hs, hp]
    | some v => rfl

theorem extract_scrubPre (data : List Entry) :
    extractVersions (data.map scrubPreEntry) = extractVersions data := by
  unfold extractVersions
  induction data with
  | nil => rfl
  | cons e rest ih =>
    simp only [List.map_cons, List.flatMap_cons, ih]
    simp only [scrubPreEntry, boundVersions_scrubPre]

theorem extract_scrubBad (data : List Entry) :
    extractVersions (data.map scrubBadEntry) = extractVersions data := by
  unfold extractVersions
  induction data with
  | nil => rfl
  | cons e rest ih =>
    simp only [List.map_cons, List.flatMap_cons, ih]
    simp only [scrubBadEntry, boundVersions_scrubBad]

/-! ### Sortedness of the two outputs -/

theorem generate_candidates_pairwise (data : List Entry) :
    (generate_candidates data).Pairwise
      (fun s t => relLt (parsedRelease t) (parsedRelease s) = false) := by
  unfold generate_candidates
  by_cases hv : extractVersions data = []
  · simp [hv]
  · rw [if_neg hv]
    have h := pairwise_sortLe genLe genLe_trans genLe_total
      ((majors (extractVersions data)).flatMap
        (fun m => groupCandsGen (groupOf (extractVersions data) m))).dedup
    apply h.imp
    intro a b hab
    unfold genLe at hab
    rwa [Bool.not_eq_true'] at hab

theorem get_version_candidates_pairwise (data : List Entry) :
    (get_version_candidates data).Pairwise (fun s t => strLt t s = false) := by
  unfold get_version_candidates
  by_cases hv : extractVersions data = []
  · simp [hv]
  · rw [if_neg hv]
    have h := pairwise_sortLe lexLe lexLe_trans lexLe_total
      ((majors (extractVersions data)).flatMap
        (fun m => groupCandsTV (groupOf (extractVersions data) m))).dedup
    apply h.imp
    intro a b hab
    unfold lexLe at hab
    rwa [Bool.not_eq_true'] at hab

/-! ### Full characterizations of the two midpoint candidates -/

theorem firstDiff_lt_of_relLt (a b : List Nat) (i : Nat)
    (hab : relLt a b = true) (hdiff : firstDiffIdx a b = some i) :
    gd a i < gd b i := by
  obtain ⟨h1, h2, h3, h4⟩ := firstDiffIdx_spec a b i hdiff
  obtain ⟨i', hpre', hi'⟩ := (relLt_iff a b).mp hab
  rcases Nat.lt_trichotomy i i' with hlt | heq | hgt
  · exact absurd (hpre' i hlt) h4
  · subst heq
    exact hi'
  · have := h3 i' hgt
    omega

theorem gd_gap1Shape (p : List Nat) (i : Nat) (hi : i < p.length) :
    ∀ j, j ≤ i → gd (p.take (i + 1) ++ [5]) j = gd p j := by
  intro j hj
  rw [gd_append_left]
  · exact gd_take p (i + 1) j (by omega)
  · rw [List.length_take]
    omega

/-- The padded tuples of a pair compare exactly as the raw releases. -/
theorem relLt_pad_left (a b : VersionNumber) (l : List Nat) :
    relLt (padLo a b) l = relLt a.release l := by
  exact relLt_congr _ l _ l (fun i => gd_padTo _ _ i) (fun i => rfl)

theorem relLt_pad_left' (a b : VersionNumber) (l : List Nat) :
    relLt l (padLo a b) = relLt l a.release := by
  exact relLt_congr l _ l _ (fun i => rfl) (fun i => gd_padTo _ _ i)

theorem relLt_pad_right (a b : VersionNumber) (l : List Nat) :
    relLt (padHi a b) l = relLt b.release l := by
  exact relLt_congr _ l _ l (fun i => gd_padTo _ _ i) (fun i => rfl)

theorem relLt_pad_right' (a b : VersionNumber) (l : List Nat) :
    relLt l (padHi a b) = relLt l b.release := by
  exact relLt_congr l _ l _ (fun i => rfl) (fun i => gd_padTo _ _ i)

theorem relLt_trim_left (m : List Nat) (l : List Nat) :
    relLt (trimMid m) l = relLt m l :=
  relLt_congr _ l _ l (fun i => gd_trimMid m i) (fun i => rfl)

theorem relLt_trim_right (m : List Nat) (l : List Nat) :
    relLt l (trimMid m) = relLt l m :=
  relLt_congr l _ l _ (fun i => rfl) (fun i => gd_trimMid m i)

/-- Everything true of a produced test_ver.py midpoint: it exists only
for a gap above one at the first difference, its parsed tuple is the
described midpoint tuple, and it is strictly between the bounds. -/
theorem midCandTV_spec (a b : VersionNumber) (c : Str)
    (h : midCandTV a b = some c) :
    ∃ i, firstDiffIdx (padLo a b) (padHi a b) = some i
      ∧ 1 < gd (padHi a b) i - gd (padLo a b) i
      ∧ parsedRelease c = midTuple a b i
      ∧ relLt a.release (parsedRelease c) = true
      ∧ relLt (parsedRelease c) b.release = true := by
  unfold midCandTV at h
  by_cases hlt : vLt a b = true
  · rw [if_pos hlt] at h
    cases hm : findMidTV (padTo (lenMax a b) a.release) (padTo (lenMax a b) b.release) with
    | none =>
      rw [hm] at h
      exact absurd h (by simp)
    | some mid =>
      rw [hm] at h
      simp only [Option.some.injEq] at h
      have hm' : findMidTV (padLo a b) (padHi a b) = some mid := hm
      obtain ⟨i, hdiff, hgap, hshape⟩ := findMidTV_some _ _ _ hm'
      obtain ⟨hi1, hi2, hipre, _⟩ := firstDiffIdx_spec _ _ _ hdiff
      have hval : (gd (padLo a b) i + gd (padHi a b) i) / 2
          = gd (padLo a b) i + (gd (padHi a b) i - gd (padLo a b) i) / 2 := by
        omega
      have hshape2 : mid = midTuple a b i := by
        rw [hshape, hval]
        rfl
      have hmid_ne : mid ≠ [] := by
        rw [hshape]
        simp
      have hparse : parsedRelease c = mid := by
        rw [← h, parsedRelease_printVersion mid hmid_ne]
      have hbetween := mid_between (padLo a b) (padHi a b) mid i
        (gd (padLo a b) i + (gd (padHi a b) i - gd (padLo a b) i) / 2)
        (by omega) (by rw [hshape2]; rfl) hipre (by omega) (by omega)
      refine ⟨i, hdiff, hgap, by rw [hparse, hshape2], ?_, ?_⟩
      · rw [hparse, ← relLt_pad_left a b]
        exact hbetween.1
      · rw [hparse, ← relLt_pad_right' a b]
        exact hbetween.2
  · rw [if_neg hlt] at h
    exact absurd h (by simp)

/-- Everything provable of a produced verify_versions.py midpoint: it is
always strictly below the group maximum, and when the first-difference
gap is above one it is also strictly above the minimum and its parsed
tuple matches the described midpoint tuple. -/
theorem midCandGen_spec (a b : VersionNumber) (c : Str)
    (h : midCandGen a b = some c) :
    ∃ i, firstDiffIdx (padLo a b) (padHi a b) = some i
      ∧ relLt (parsedRelease c) b.release = true
      ∧ (1 < gd (padHi a b) i - gd (padLo a b) i →
          (∀ j, gd (parsedRelease c) j = gd (midTuple a b i) j)
          ∧ relLt a.release (parsedRelease c) = true) := by
  unfold midCandGen at h
  by_cases hlt : vLt a b = true
  · rw [if_pos hlt] at h
    cases hm : findMidGen (padTo (lenMax a b) a.release) (padTo (lenMax a b) b.release) with
    | none =>
      rw [hm] at h
      exact absurd h (by simp)
    | some mid =>
      rw [hm] at h
      simp only [Option.some.injEq] at h
      have hm' : findMidGen (padLo a b) (padHi a b) = some mid := hm
      obtain ⟨i, hdiff, hne, hcase⟩ := findMidGen_some _ _ _ hm'
      obtain ⟨hi1, hi2, hipre, _⟩ := firstDiffIdx_spec _ _ _ hdiff
      have hmid_ne : mid ≠ [] := by
        rcases hcase with ⟨_, hm2⟩ | ⟨_, hm2⟩ <;> rw [hm2] <;> simp
      have hparse : parsedRelease c = trimMid mid := by
        rw [← h, parsedRelease_printVersion _ (trimMid_ne_nil mid hmid_ne)]
      have hpadlt : relLt (padLo a b) (padHi a b) = true := by
        rw [relLt_pad_left, relLt_pad_right']
        exact hlt
      have hlt_i : gd (padLo a b) i < gd (padHi a b) i :=
        firstDiff_lt_of_relLt _ _ i hpadlt hdiff
      refine ⟨i, hdiff, ?_, ?_⟩
      · rcases hcase with ⟨hgap, hm2⟩ | ⟨hgap, hm2⟩
        · have hbetween := mid_between (padLo a b) (padHi a b) mid i
            (gd (padLo a b) i + (gd (padHi a b) i - gd (padLo a b) i) / 2)
            (by omega) (by rw [hm2]) hipre (by omega) (by omega)
          rw [hparse, relLt_trim_left, ← relLt_pad_right' a b]
          exact hbetween.2
        · rw [hparse, relLt_trim_left, ← relLt_pad_right' a b]
          rw [relLt_iff]
          refine ⟨i, ?_, ?_⟩
          · intro j hj
            rw [hm2, gd_gap1Shape _ _ hi1 j (by omega)]
            exact hipre j hj
          · rw [hm2, gd_gap1Shape _ _ hi1 i (by omega)]
            exact hlt_i
      · intro hgap
        rcases hcase with ⟨_, hm2⟩ | ⟨hgap2, _⟩
        · have hbetween := mid_between (padLo a b) (padHi a b) mid i
            (gd (padLo a b) i + (gd (padHi a b) i - gd (padLo a b) i) / 2)
            (by omega) (by rw [hm2]) hipre (by omega) (by omega)
          constructor
          · intro j
            rw [hparse, gd_trimMid, hm2]
            rfl
          · rw [hparse, relLt_trim_right, ← relLt_pad_left a b]
            exact hbetween.1
        · omega
  · rw [if_neg hlt] at h
    exact absurd h (by simp)

/-! ## The claims -/

/-- C5: for every major-version group, a below-minimum candidate is
produced exactly when the group minimum's release tuple has at least one
positive component; when produced, it equals the minimum with its
least-significant positive component decremented by one and every other
component unchanged, and it re-parses strictly below the group minimum. -/
theorem c5_below_minimum (g : List VersionNumber) :
    ((preMinCand (pyMin g)).isSome = true ↔
      (pyMin g).release.any (fun c => 0 < c) = true)
    ∧ ∀ s, preMinCand (pyMin g) = some s →
        ∃ i, i < (pyMin g).release.length ∧ 0 < gd (pyMin g).release i
          ∧ (∀ j, i < j → gd (pyMin g).release j = 0)
          ∧ s = printVersion ((pyMin g).release.set i (gd (pyMin g).release i - 1))
          ∧ parseVersion s =
              some ⟨(pyMin g).release.set i (gd (pyMin g).release i - 1), false⟩
          ∧ relLt (parsedRelease s) (pyMin g).release = true := by
  constructor
  · unfold preMinCand
    cases hd : decLastPos (pyMin g).release with
    | none =>
      simp only [Option.map_none', Option.isSome_none]
      have hz := (decLastPos_none_iff _).mp hd
      constructor
      · intro h
        exact absurd h (by simp)
      · intro h
        rw [List.any_eq_true] at h
        obtain ⟨c, hc, hpos⟩ := h
        have := hz c hc
        simp only [decide_eq_true_eq] at hpos
        omega
    | some r =>
      simp only [Option.map_some', Option.isSome_some, true_iff]
      by_contra hany
      rw [Bool.not_eq_true, List.any_eq_false] at hany
      have hz : ∀ c ∈ (pyMin g).release, c = 0 := by
        intro c hc
        have := hany c hc
        simp only [decide_eq_true_eq] at this
        omega
      rw [(decLastPos_none_iff _).mpr hz] at hd
      exact absurd hd (by simp)
  · intro s hs
    unfold preMinCand at hs
    rw [Option.map_eq_some'] at hs
    obtain ⟨r, hr, hsr⟩ := hs
    obtain ⟨i, h1, h2, h3, h4⟩ := decLastPos_some _ _ hr
    have hr_ne : r ≠ [] := by
      intro hnil
      rw [h4] at hnil
      have hlen := List.length_set (pyMin g).release i (gd (pyMin g).release i - 1)
      rw [hnil] at hlen
      simp only [List.length_nil] at hlen
      omega
    refine ⟨i, h1, h2, h3, ?_, ?_, ?_⟩
    · rw [← hsr, h4]
    · rw [← hsr, h4]
      exact parseVersion_printVersion _ (h4 ▸ hr_ne)
    · rw [← hsr, parsedRelease_printVersion r hr_ne, h4]
      exact relLt_set_dec _ _ h1 h2

/-- Witness for C5 at the concrete group minimum 1.2.0: the produced
below-minimum candidate 1.1.0 re-parses strictly below it. -/
theorem c5_below_minimum_witness :
    relLt (parsedRelease (strOf "1.1.0"))
      (pyMin [(⟨[1, 2, 0], false⟩ : VersionNumber)]).release = true := by
  obtain ⟨i, h1, h2, h3, h4, h5, h6⟩ :=
    (c5_below_minimum [⟨[1, 2, 0], false⟩]).2 (strOf "1.1.0") (by decide)
  exact h6

/-- C6: for every input and every major-version group with at least one
valid version, the string form of that group's maximum version appears
in the returned output of both solvers. -/
theorem c6_max_in_output (data : List Entry) (m : Nat)
    (h : m ∈ majors (extractVersions data)) :
    strV (pyMax (groupOf (extractVersions data) m)) ∈ generate_candidates data
    ∧ strV (pyMax (groupOf (extractVersions data) m))
        ∈ get_version_candidates data := by
  constructor
  · rw [mem_generate_candidates]
    exact ⟨majors_ne_nil _ _ h, m, h, by simp [groupCandsGen]⟩
  · rw [mem_get_version_candidates]
    exact ⟨majors_ne_nil _ _ h, m, h, by simp [groupCandsTV]⟩

/-- Witness for C6 at one concrete input: the group maximum 1.6.0 is in
both outputs. -/
theorem c6_max_in_output_witness :
    strV (pyMax (groupOf
        (extractVersions [⟨some (strOf "1.2.0"), some (strOf "1.6.0")⟩]) 1))
      ∈ generate_candidates [⟨some (strOf "1.2.0"), some (strOf "1.6.0")⟩]
    ∧ strV (pyMax (groupOf
        (extractVersions [⟨some (strOf "1.2.0"), some (strOf "1.6.0")⟩]) 1))
      ∈ get_version_candidates [⟨some (strOf "1.2.0"), some (strOf "1.6.0")⟩] :=
  c6_max_in_output [⟨some (strOf "1.2.0"), some (strOf "1.6.0")⟩] 1 (by decide)

/-- C10: in generate_candidates (verify_versions.py), for every
major-version group with at least one valid version, the string form of
the group's minimum version is included in the returned output. -/
theorem c10_min_in_generate (data : List Entry) (m : Nat)
    (h : m ∈ majors (extractVersions data)) :
    strV (pyMin (groupOf (extractVersions data) m)) ∈ generate_candidates data := by
  rw [mem_generate_candidates]
  exact ⟨majors_ne_nil _ _ h, m, h, by simp [groupCandsGen]⟩

/-- Witness for C10 at one concrete input: the group minimum 1.2.0 is in
the generate_candidates output. -/
theorem c10_min_in_generate_witness :
    strV (pyMin (groupOf
        (extractVersions [⟨some (strOf "1.2.0"), some (strOf "1.6.0")⟩]) 1))
      ∈ generate_candidates [⟨some (strOf "1.2.0"), some (strOf "1.6.0")⟩] :=
  c10_min_in_generate [⟨some (strOf "1.2.0"), some (strOf "1.6.0")⟩] 1 (by decide)

/-- C7: no version string that parses as a pre-release ever appears in
the output of either solver (every output string re-parses as a final
release), and removing all pre-release bound strings from the input
leaves both outputs unchanged - pre-release bounds neither appear in nor
influence the result. -/
theorem c7_prerelease_exclusion :
    (∀ (data : List Entry) (s : Str),
        s ∈ generate_candidates data ∨ s ∈ get_version_candidates data →
          ∃ r, parseVersion s = some ⟨r, false⟩)
    ∧ ∀ data : List Entry,
        generate_candidates (data.map scrubPreEntry) = generate_candidates data
        ∧ get_version_candidates (data.map scrubPreEntry)
            = get_version_candidates data := by
  constructor
  · intro data s h
    obtain ⟨parts, hne, hs⟩ := out_shape data s h
    exact ⟨parts, by rw [hs]; exact parseVersion_printVersion parts hne⟩
  · intro data
    constructor
    · simp only [generate_candidates, extract_scrubPre]
    · simp only [get_version_candidates, extract_scrubPre]

/-- Witness for C7 at one concrete input: the output string 1.1.0
re-parses as a final release. -/
theorem c7_prerelease_exclusion_witness :
    ∃ r, parseVersion (strOf "1.1.0") = some ⟨r, false⟩ :=
  c7_prerelease_exclusion.1 [⟨some (strOf "1.2.0"), some (strOf "1.6.0")⟩]
    (strOf "1.1.0") (Or.inl (by decide))

/-- C8: bound strings that fail to parse are silently excluded from the
working set (removing them changes nothing), and when nothing valid
remains both solvers return the empty candidate list. -/
theorem c8_malformed_excluded :
    (∀ data : List Entry,
        generate_candidates (data.map scrubBadEntry) = generate_candidates data
        ∧ get_version_candidates (data.map scrubBadEntry)
            = get_version_candidates data)
    ∧ ∀ data : List Entry, extractVersions data = [] →
        generate_candidates data = [] ∧ get_version_candidates data = [] := by
  constructor
  · intro data
    constructor
    · simp only [generate_candidates, extract_scrubBad]
    · simp only [get_version_candidates, extract_scrubBad]
  · intro data h
    constructor
    · simp [generate_candidates, h]
    · simp [get_version_candidates, h]

/-- Witness for C8: on an input whose only bound is malformed, both
solvers return the empty list. -/
theorem c8_malformed_excluded_witness :
    generate_candidates [(⟨some (strOf "abc"), none⟩ : Entry)] = []
    ∧ get_version_candidates [(⟨some (strOf "abc"), none⟩ : Entry)] = [] :=
  c8_malformed_excluded.2 [⟨some (strOf "abc"), none⟩] (by decide)

/-- Counterexample to C3 as stated: on one concrete input,
generate_candidates outputs the group-minimum string 1.2.0, which is
neither the below-minimum (1.1.0), nor the maximum (1.6.0), nor the
midpoint (1.4.0) of the input's only major-version group. -/
theorem c3_counterexample :
    strOf "1.2.0" ∈ generate_candidates [⟨some (strOf "1.2.0"), some (strOf "1.6.0")⟩]
    ∧ majors (extractVersions [⟨some (strOf "1.2.0"), some (strOf "1.6.0")⟩]) = [1]
    ∧ preMinCand (pyMin (groupOf
        (extractVersions [⟨some (strOf "1.2.0"), some (strOf "1.6.0")⟩]) 1))
        = some (strOf "1.1.0")
    ∧ strV (pyMax (groupOf
        (extractVersions [⟨some (strOf "1.2.0"), some (strOf "1.6.0")⟩]) 1))
        = strOf "1.6.0"
    ∧ midCandGen
        (pyMin (groupOf
          (extractVersions [⟨some (strOf "1.2.0"), some (strOf "1.6.0")⟩]) 1))
        (pyMax (groupOf
          (extractVersions [⟨some (strOf "1.2.0"), some (strOf "1.6.0")⟩]) 1))
        = some (strOf "1.4.0")
    ∧ strOf "1.2.0" ≠ strOf "1.1.0"
    ∧ strOf "1.2.0" ≠ strOf "1.6.0"
    ∧ strOf "1.2.0" ≠ strOf "1.4.0" := by
  decide

/-- C3 (amended): every string returned by get_version_candidates is one
of the three per-group candidate kinds (below-minimum, maximum, midpoint)
of some major-version group; every string returned by generate_candidates
is one of those three kinds or the group minimum. -/
theorem c3_output_kinds (data : List Entry) (s : Str) :
    (s ∈ get_version_candidates data →
      ∃ m ∈ majors (extractVersions data),
        preMinCand (pyMin (groupOf (extractVersions data) m)) = some s
        ∨ s = strV (pyMax (groupOf (extractVersions data) m))
        ∨ midCandTV (pyMin (groupOf (extractVersions data) m))
            (pyMax (groupOf (extractVersions data) m)) = some s)
    ∧ (s ∈ generate_candidates data →
      ∃ m ∈ majors (extractVersions data),
        s = strV (pyMin (groupOf (extractVersions data) m))
        ∨ preMinCand (pyMin (groupOf (extractVersions data) m)) = some s
        ∨ s = strV (pyMax (groupOf (extractVersions data) m))
        ∨ midCandGen (pyMin (groupOf (extractVersions data) m))
            (pyMax (groupOf (extractVersions data) m)) = some s) := by
  constructor
  · intro h
    obtain ⟨_, m, hm, hmem⟩ := (mem_get_version_candidates data s).mp h
    refine ⟨m, hm, ?_⟩
    rcases groupCandsTV_cases _ _ hmem with h2 | h2 | h2
    · exact Or.inr (Or.inl h2)
    · exact Or.inl h2
    · exact Or.inr (Or.inr h2)
  · intro h
    obtain ⟨_, m, hm, hmem⟩ := (mem_generate_candidates data s).mp h
    refine ⟨m, hm, ?_⟩
    rcases groupCandsGen_cases _ _ hmem with h2 | h2 | h2 | h2
    · exact Or.inl h2
    · exact Or.inr (Or.inr (Or.inl h2))
    · exact Or.inr (Or.inl h2)
    · exact Or.inr (Or.inr (Or.inr h2))

/-- Witness for C3 (amended): the output string 0.0.0 of
get_version_candidates is one of the three kinds of some group. -/
theorem c3_output_kinds_witness :
    ∃ m ∈ majors (extractVersions [⟨some (strOf "1.0.0"), some (strOf "1.1.0")⟩]),
      preMinCand (pyMin (groupOf
          (extractVersions [⟨some (strOf "1.0.0"), some (strOf "1.1.0")⟩]) m))
          = some (strOf "0.0.0")
      ∨ strOf "0.0.0" = strV (pyMax (groupOf
          (extractVersions [⟨some (strOf "1.0.0"), some (strOf "1.1.0")⟩]) m))
      ∨ midCandTV
          (pyMin (groupOf
            (extractVersions [⟨some (strOf "1.0.0"), some (strOf "1.1.0")⟩]) m))
          (pyMax (groupOf
            (extractVersions [⟨some (strOf "1.0.0"), some (strOf "1.1.0")⟩]) m))
          = some (strOf "0.0.0") :=
  (c3_output_kinds [⟨some (strOf "1.0.0"), some (strOf "1.1.0")⟩]
    (strOf "0.0.0")).1 (by decide)

/-- Counterexample to C4 as stated: get_version_candidates sorts by raw
string, and on this input returns 1.10.0 before 1.9.0 although 1.9.0
parses strictly below 1.10.0 - the sequence is not non-decreasing under
parsed-version ordering. -/
theorem c4_counterexample :
    get_version_candidates [⟨some (strOf "1.9.1"), some (strOf "1.10.0")⟩]
      = [strOf "1.10.0", strOf "1.9.0"]
    ∧ relLt (parsedRelease (strOf "1.9.0")) (parsedRelease (strOf "1.10.0"))
        = true := by
  decide

/-- C4 (amended): every returned string of either solver re-parses to a
valid final-release version; generate_candidates is sorted non-decreasing
under parsed-version ordering; get_version_candidates is sorted
non-decreasing under plain string ordering (not parsed ordering). -/
theorem c4_roundtrip_and_order :
    (∀ (data : List Entry) (s : Str),
        s ∈ generate_candidates data ∨ s ∈ get_version_candidates data →
          ∃ parts, parseVersion s = some ⟨parts, false⟩)
    ∧ (∀ data : List Entry, (generate_candidates data).Pairwise
        (fun s t => relLt (parsedRelease t) (parsedRelease s) = false))
    ∧ ∀ data : List Entry, (get_version_candidates data).Pairwise
        (fun s t => strLt t s = false) := by
  refine ⟨?_, generate_candidates_pairwise, get_version_candidates_pairwise⟩
  intro data s h
  obtain ⟨parts, hne, hs⟩ := out_shape data s h
  exact ⟨parts, by rw [hs]; exact parseVersion_printVersion parts hne⟩

/-- Witness for C4 (amended): the output string 1.9.0 re-parses. -/
theorem c4_roundtrip_and_order_witness :
    ∃ parts, parseVersion (strOf "1.9.0") = some ⟨parts, false⟩ :=
  c4_roundtrip_and_order.1 [⟨some (strOf "1.9.1"), some (strOf "1.10.0")⟩]
    (strOf "1.9.0") (Or.inr (by decide))

/-- Counterexample to C1 as stated: on bounds 1.2.9 and 1.3.0 (one
group, minimum 1.2.9 strictly below maximum 1.3.0),
generate_candidates produces the midpoint 1.2.5, which does NOT satisfy
m < parse(c): 1.2.5 is below the minimum 1.2.9. -/
theorem c1_counterexample :
    vLt (pyMin (groupOf
        (extractVersions [⟨some (strOf "1.2.9"), some (strOf "1.3.0")⟩]) 1))
      (pyMax (groupOf
        (extractVersions [⟨some (strOf "1.2.9"), some (strOf "1.3.0")⟩]) 1)) = true
    ∧ midCandGen
        (pyMin (groupOf
          (extractVersions [⟨some (strOf "1.2.9"), some (strOf "1.3.0")⟩]) 1))
        (pyMax (groupOf
          (extractVersions [⟨some (strOf "1.2.9"), some (strOf "1.3.0")⟩]) 1))
        = some (strOf "1.2.5")
    ∧ strOf "1.2.5"
        ∈ generate_candidates [⟨some (strOf "1.2.9"), some (strOf "1.3.0")⟩]
    ∧ relLt (pyMin (groupOf
        (extractVersions [⟨some (strOf "1.2.9"), some (strOf "1.3.0")⟩]) 1)).release
        (parsedRelease (strOf "1.2.5")) = false := by
  decide

/-- C1 (amended): every midpoint candidate of get_version_candidates
satisfies m < parse(c) < M; for generate_candidates, parse(c) < M always
holds, and m < parse(c) additionally holds whenever the first-difference
gap of the padded bounds exceeds 1 (when the gap is 1 the midpoint can
fall at or below the minimum). -/
theorem c1_midpoint_bounds (g : List VersionNumber) :
    (∀ c, midCandTV (pyMin g) (pyMax g) = some c →
        relLt (pyMin g).release (parsedRelease c) = true
        ∧ relLt (parsedRelease c) (pyMax g).release = true)
    ∧ (∀ c, midCandGen (pyMin g) (pyMax g) = some c →
        relLt (parsedRelease c) (pyMax g).release = true)
    ∧ ∀ c i, midCandGen (pyMin g) (pyMax g) = some c →
        firstDiffIdx (padLo (pyMin g) (pyMax g)) (padHi (pyMin g) (pyMax g))
          = some i →
        1 < gd (padHi (pyMin g) (pyMax g)) i - gd (padLo (pyMin g) (pyMax g)) i →
        relLt (pyMin g).release (parsedRelease c) = true
        ∧ relLt (parsedRelease c) (pyMax g).release = true := by
  refine ⟨?_, ?_, ?_⟩
  · intro c hc
    obtain ⟨i, _, _, _, hlo, hhi⟩ := midCandTV_spec _ _ _ hc
    exact ⟨hlo, hhi⟩
  · intro c hc
    obtain ⟨i, _, hupper, _⟩ := midCandGen_spec _ _ _ hc
    exact hupper
  · intro c i hc hdiff hgap
    obtain ⟨i', hdiff', hupper, hcond⟩ := midCandGen_spec _ _ _ hc
    rw [hdiff] at hdiff'
    injection hdiff' with hii
    subst hii
    exact ⟨(hcond hgap).2, hupper⟩

/-- Witness for C1 (amended): on the group of bounds 1.2.0 and 1.6.0 the
generate_candidates midpoint 1.4.0 is strictly between the bounds. -/
theorem c1_midpoint_bounds_witness :
    relLt (pyMin (groupOf
        (extractVersions [⟨some (strOf "1.2.0"), some (strOf "1.6.0")⟩]) 1)).release
      (parsedRelease (strOf "1.4.0")) = true
    ∧ relLt (parsedRelease (strOf "1.4.0"))
        (pyMax (groupOf
          (extractVersions [⟨some (strOf "1.2.0"), some (strOf "1.6.0")⟩]) 1)).release
        = true :=
  (c1_midpoint_bounds (groupOf
      (extractVersions [⟨some (strOf "1.2.0"), some (strOf "1.6.0")⟩]) 1)).2.2
    (strOf "1.4.0") 1 (by decide) (by decide) (by decide)

/-- Counterexample to C2 as stated: on bounds 1.0.0 and 1.1.0 (gap
exactly 1 at index 1), get_version_candidates produces NO midpoint
candidate at all - its gap-one code path stores nothing - so the claimed
midpoint 1.0.5 is absent from its output. -/
theorem c2_counterexample :
    get_version_candidates [⟨some (strOf "1.0.0"), some (strOf "1.1.0")⟩]
      = [strOf "0.0.0", strOf "1.1.0"]
    ∧ strOf "1.0.5"
        ∉ get_version_candidates [⟨some (strOf "1.0.0"), some (strOf "1.1.0")⟩]
    ∧ midCandTV
        (pyMin (groupOf
          (extractVersions [⟨some (strOf "1.0.0"), some (strOf "1.1.0")⟩]) 1))
        (pyMax (groupOf
          (extractVersions [⟨some (strOf "1.0.0"), some (strOf "1.1.0")⟩]) 1))
        = none := by
  decide

/-- C2 (amended): for a group whose padded bounds first differ at index i
with component difference exactly 1, generate_candidates produces the
midpoint made of the minimum's padded components up to and including i
with a trailing 5 appended; get_version_candidates produces no midpoint
candidate for such a group. -/
theorem c2_gap_one_midpoint (g : List VersionNumber) (i : Nat)
    (hlt : vLt (pyMin g) (pyMax g) = true)
    (hdiff : firstDiffIdx (padLo (pyMin g) (pyMax g)) (padHi (pyMin g) (pyMax g))
      = some i)
    (hgap : gd (padHi (pyMin g) (pyMax g)) i - gd (padLo (pyMin g) (pyMax g)) i
      = 1) :
    midCandGen (pyMin g) (pyMax g)
      = some (printVersion ((padLo (pyMin g) (pyMax g)).take (i + 1) ++ [5]))
    ∧ midCandTV (pyMin g) (pyMax g) = none := by
  constructor
  · unfold midCandGen
    rw [if_pos hlt]
    have hfind := findMidGen_gap_le_one (padLo (pyMin g) (pyMax g))
      (padHi (pyMin g) (pyMax g)) i hdiff (by omega)
    unfold padLo padHi at hfind
    rw [hfind]
    simp only []
    rw [trimMid_last_pos _ 5 (by omega)]
    rfl
  · unfold midCandTV
    rw [if_pos hlt]
    have hfind := findMidTV_gap_le_one (padLo (pyMin g) (pyMax g))
      (padHi (pyMin g) (pyMax g)) i hdiff (by omega)
    unfold padLo padHi at hfind
    rw [hfind]

/-- Witness for C2 (amended): on the group of bounds 1.0.0 and 1.1.0,
generate_candidates yields the midpoint 1.0.5 and get_version_candidates
yields none. -/
theorem c2_gap_one_midpoint_witness :
    midCandGen
        (pyMin (groupOf
          (extractVersions [⟨some (strOf "1.0.0"), some (strOf "1.1.0")⟩]) 1))
        (pyMax (groupOf
          (extractVersions [⟨some (strOf "1.0.0"), some (strOf "1.1.0")⟩]) 1))
      = some (strOf "1.0.5")
    ∧ midCandTV
        (pyMin (groupOf
          (extractVersions [⟨some (strOf "1.0.0"), some (strOf "1.1.0")⟩]) 1))
        (pyMax (groupOf
          (extractVersions [⟨some (strOf "1.0.0"), some (strOf "1.1.0")⟩]) 1))
      = none := by
  have h := c2_gap_one_midpoint (groupOf
    (extractVersions [⟨some (strOf "1.0.0"), some (strOf "1.1.0")⟩]) 1) 1
    (by decide) (by decide) (by decide)
  exact ⟨h.1.trans (by decide), h.2⟩

/-- C9: for every group whose padded bounds first differ at an index i
with component difference above 1, both solvers produce a midpoint
candidate; its parsed tuple is the described one (the minimum's
components before i, minComponent plus half the gap at i, zeros after)
and it re-parses strictly between the group minimum and maximum. -/
theorem c9_gap_big_midpoint (g : List VersionNumber) (i : Nat)
    (hlt : vLt (pyMin g) (pyMax g) = true)
    (hdiff : firstDiffIdx (padLo (pyMin g) (pyMax g)) (padHi (pyMin g) (pyMax g))
      = some i)
    (hgap : 1 < gd (padHi (pyMin g) (pyMax g)) i - gd (padLo (pyMin g) (pyMax g)) i) :
    ∃ c c', midCandGen (pyMin g) (pyMax g) = some c
      ∧ midCandTV (pyMin g) (pyMax g) = some c'
      ∧ (∀ j, gd (parsedRelease c) j = gd (midTuple (pyMin g) (pyMax g) i) j)
      ∧ parsedRelease c' = midTuple (pyMin g) (pyMax g) i
      ∧ relLt (pyMin g).release (parsedRelease c) = true
      ∧ relLt (parsedRelease c) (pyMax g).release = true
      ∧ relLt (pyMin g).release (parsedRelease c') = true
      ∧ relLt (parsedRelease c') (pyMax g).release = true := by
  have hfindG := findMidGen_gap_big (padLo (pyMin g) (pyMax g))
    (padHi (pyMin g) (pyMax g)) i hdiff hgap
  have hfindT := findMidTV_gap_big (padLo (pyMin g) (pyMax g))
    (padHi (pyMin g) (pyMax g)) i hdiff hgap
  have hG : midCandGen (pyMin g) (pyMax g) = some (printVersion (trimMid
      ((padLo (pyMin g) (pyMax g)).take i ++
        (gd (padLo (pyMin g) (pyMax g)) i +
          (gd (padHi (pyMin g) (pyMax g)) i - gd (padLo (pyMin g) (pyMax g)) i) / 2)
          :: List.replicate ((padLo (pyMin g) (pyMax g)).length - (i + 1)) 0))) := by
    unfold midCandGen
    rw [if_pos hlt]
    unfold padLo padHi at hfindG ⊢
    rw [hfindG]
  have hT : midCandTV (pyMin g) (pyMax g) = some (printVersion
      ((padLo (pyMin g) (pyMax g)).take i ++
        ((gd (padLo (pyMin g) (pyMax g)) i + gd (padHi (pyMin g) (pyMax g)) i) / 2)
          :: List.replicate ((padLo (pyMin g) (pyMax g)).length - (i + 1)) 0)) := by
    unfold midCandTV
    rw [if_pos hlt]
    unfold padLo padHi at hfindT ⊢
    rw [hfindT]
  obtain ⟨i', hdiff', hupper, hcond⟩ := midCandGen_spec _ _ _ hG
  rw [hdiff] at hdiff'
  injection hdiff' with hii
  subst hii
  obtain ⟨hgd, hlower⟩ := hcond hgap
  obtain ⟨i'', hdiff'', hgap'', hparse'', hlo'', hhi''⟩ := midCandTV_spec _ _ _ hT
  rw [hdiff] at hdiff''
  injection hdiff'' with hii2
  subst hii2
  exact ⟨_, _, hG, hT, hgd, hparse'', hlower, hupper, hlo'', hhi''⟩

/-- Witness for C9: on the group of bounds 1.2.0 and 1.6.0 both solvers
produce a midpoint strictly between the bounds. -/
theorem c9_gap_big_midpoint_witness :
    ∃ c, midCandGen
        (pyMin (groupOf
          (extractVersions [⟨some (strOf "1.2.0"), some (strOf "1.6.0")⟩]) 1))
        (pyMax (groupOf
          (extractVersions [⟨some (strOf "1.2.0"), some (strOf "1.6.0")⟩]) 1))
        = some c
      ∧ relLt (pyMin (groupOf
          (extractVersions [⟨some (strOf "1.2.0"), some (strOf "1.6.0")⟩]) 1)).release
          (parsedRelease c) = true
      ∧ relLt (parsedRelease c)
          (pyMax (groupOf
            (extractVersions [⟨some (strOf "1.2.0"), some (strOf "1.6.0")⟩]) 1)).release
          = true := by
  obtain ⟨c, c', h1, h2, h3, h4, h5, h6, h7, h8⟩ := c9_gap_big_midpoint
    (groupOf (extractVersions [⟨some (strOf "1.2.0"), some (strOf "1.6.0")⟩]) 1) 1
    (by decide) (by decide) (by decide)
  exact ⟨c, h1, h5, h6⟩

end VersionSolver
